import Mathlib

/-!
Verification of the BPE tokenizer in
src/tutorial-4-refactor-to-byte-level/src/solution_BPETokenizer.py
(the byte-level solution stage, which the spec describes as the core).

Modelling conventions:
* A Python string is a list of Unicode code points, `Str := List Nat`.
* A Python dict is an insertion-ordered association list without duplicate
  keys; `dictInsert` overwrites in place (keeping the key's position) when
  the key is present and appends otherwise, exactly like dict assignment,
  and `dictGet?` is dict lookup returning an option.
* A Python set argument is modelled as a list (its iteration order);
  properties proved about it hold for every order.
* Lookups that would raise KeyError in Python are modelled with an explicit
  default only where noted in the doc comment of the definition.
-/

/-- A Python string, as its list of Unicode code points. -/
abbrev Str := List Nat

/-- Code point of the boundary marker character (U+0120, the character
written as a capital G with a dot above in the source). -/
def gMark : Nat := 288

/-- Code point of the space character. -/
def spaceCp : Nat := 32

/-- Python dict assignment d[k] = v: overwrite in place when the key is
present, append otherwise. -/
def dictInsert {α β : Type} [DecidableEq α] (m : List (α × β)) (k : α) (v : β) :
    List (α × β) :=
  if m.any (fun p => p.1 = k) then
    m.map (fun p => if p.1 = k then (k, v) else p)
  else
    m ++ [(k, v)]

/-- Python dict lookup d.get(k): the value at the first (unique) entry with
key k, if any. -/
def dictGet? {α β : Type} [DecidableEq α] (m : List (α × β)) (k : α) : Option β :=
  (m.find? (fun p => p.1 = k)).map Prod.snd

/-- Python max over the keys of a Nat-keyed dict (0 when empty; in the
source the dict is never empty at the call site). -/
def maxKey {β : Type} (m : List (Nat × β)) : Nat :=
  m.foldl (fun a p => max a p.1) 0

/-- The space-preprocessing loop body of encode (lines 110-117), encode's
per-segment copy (lines 92-98) and train (lines 202-209): for each character
at index i, first emit the boundary marker if the character is a space and
i is not 0, then emit the character itself if it is not a space. -/
def preprocessFrom : Nat → Str → Str
  | _, [] => []
  | i, c :: rest =>
      (if c = spaceCp ∧ i ≠ 0 then [gMark] else []) ++
      (if c ≠ spaceCp then [c] else []) ++ preprocessFrom (i + 1) rest

/-- The whole space-preprocessing pass, starting at index 0. -/
def preprocess (t : Str) : Str := preprocessFrom 0 t

/-- zip(token_ids, token_ids[1:]): the list of adjacent pairs. -/
def pairsOf (ids : List Nat) : List (Nat × Nat) :=
  ids.zip ids.tail

/-- Index of the first occurrence of q in the list (the list's length when
q is absent); used to state the first-occurrence tie-break of
find_freq_pair. -/
def firstIdx : List (Nat × Nat) → (Nat × Nat) → Nat
  | [], _ => 0
  | x :: xs, q => if x = q then 0 else firstIdx xs q + 1

/-- One counting step of Counter: bump the entry of an already-seen key in
place, append a fresh entry with count 1 otherwise. -/
def counterStep (acc : List ((Nat × Nat) × Nat)) (p : Nat × Nat) :
    List ((Nat × Nat) × Nat) :=
  if acc.any (fun q => q.1 = p) then
    acc.map (fun q => if q.1 = p then (q.1, q.2 + 1) else q)
  else
    acc ++ [(p, 1)]

/-- Counter(...): occurrence counts of the elements, with keys in
first-occurrence order, as Python's Counter preserves insertion order. -/
def counterOf (ps : List (Nat × Nat)) : List ((Nat × Nat) × Nat) :=
  ps.foldl counterStep []

/-- One comparison step of Python's max: keep the earlier element unless
the new one is strictly larger. -/
def pickMax (best q : (Nat × Nat) × Nat) : (Nat × Nat) × Nat :=
  if q.2 > best.2 then q else best

/-- Python max(counter, key=counter.get): the first key attaining the
maximal count, scanning in insertion order (max keeps the first maximal
element on ties). -/
def maxByCount : List ((Nat × Nat) × Nat) → Option ((Nat × Nat) × Nat)
  | [] => none
  | x :: xs => some (xs.foldl pickMax x)

/-- find_freq_pair (lines 247-275): None when fewer than 2 ids; otherwise
the most frequent adjacent pair, None again when its count is not above 1. -/
def find_freq_pair (ids : List Nat) : Option (Nat × Nat) :=
  if ids.length < 2 then none
  else
    match maxByCount (counterOf (pairsOf ids)) with
    | none => none
    | some pc => if pc.2 > 1 then some pc.1 else none

/-- The while loop of replace_pair (lines 298-316), with new_token_ids as
the accumulator acc: pop the leftmost id; when it forms the target pair
with the next id emit new_id and also pop that next id, otherwise emit the
popped id alone. -/
def replacePairGo (p : Nat × Nat) (n : Nat) : List Nat → List Nat → List Nat
  | acc, [] => acc
  | acc, [x] => acc ++ [x]
  | acc, x :: y :: rest =>
      if (x, y) = p then replacePairGo p n (acc ++ [n]) rest
      else replacePairGo p n (acc ++ [x]) (y :: rest)

/-- replace_pair (lines 277-316): one greedy left-to-right pass replacing
each occurrence of the pair by new_id. -/
def replace_pair (ids : List Nat) (p : Nat × Nat) (n : Nat) : List Nat :=
  replacePairGo p n [] ids

/-- Modelled from the spec text of section 4.3 (MergeApplier), for
comparison with the source's replace_pair: at each position, if the current
and next id equal the pair, emit new_id and advance two positions,
otherwise emit the current id and advance one. -/
def replacePairSpec : List Nat → (Nat × Nat) → Nat → List Nat
  | [], _, _ => []
  | [x], _, _ => [x]
  | x :: y :: rest, p, n =>
      if (x, y) = p then n :: replacePairSpec rest p n
      else x :: replacePairSpec (y :: rest) p n

/-- Modelled from the spec text of section 4.5 as the claim C2 states it,
for comparison with the source's preprocess: a space is kept as a literal
space when and only when it is the very first character of the text; every
other space is replaced by the boundary marker; other characters are kept. -/
def preprocessClaimed : Str → Str
  | [] => []
  | c :: rest =>
      (if c = spaceCp then [spaceCp] else [c]) ++
        rest.map (fun d => if d = spaceCp then gMark else d)

/-- What the source's preprocess actually does, stated directly: a space
that is the very first character is dropped altogether; every other space
is replaced by the boundary marker; other characters are kept. -/
def preprocessAmended : Str → Str
  | [] => []
  | c :: rest =>
      (if c = spaceCp then [] else [c]) ++
        rest.map (fun d => if d = spaceCp then gMark else d)

/-- The merge table: dict from id pairs to merged ids. -/
abbrev Merges := List ((Nat × Nat) × Nat)

/-- The while loop of apply_merges (lines 173-182), with encoded_ids as the
accumulator acc: pop the leftmost id; when (left, next) is a key of the
merge table emit its merged id and also pop the next id, otherwise emit the
popped id; finally extend with the at most one remaining id. -/
def applyMergesGo (merges : Merges) : List Nat → List Nat → List Nat
  | acc, [] => acc
  | acc, [x] => acc ++ [x]
  | acc, x :: y :: rest =>
      match dictGet? merges (x, y) with
      | some m => applyMergesGo merges (acc ++ [m]) rest
      | none => applyMergesGo merges (acc ++ [x]) (y :: rest)

/-- apply_merges (lines 150-183): return sequences of length at most 1
unchanged, otherwise run the single greedy sweep against the merge table. -/
def apply_merges (merges : Merges) (ids : List Nat) : List Nat :=
  if ids.length ≤ 1 then ids else applyMergesGo merges [] ids

/-- The tokenizer state: the three dicts set up by __init__ (lines 7-14). -/
structure Tokenizer where
  vocab : List (Nat × Str)
  inverse_vocab : List (Str × Nat)
  bpe_merges : Merges

/-- A freshly constructed tokenizer: all three dicts empty (__init__). -/
def initTokenizer : Tokenizer := ⟨[], [], []⟩

/-- The initial byte-level vocabulary (line 212): id i maps to the
one-character string chr(i) for i in range(256). -/
def baseVocab : List (Nat × Str) := (List.range 256).map (fun i => (i, [i]))

/-- The initial inverse vocabulary (line 213). -/
def baseInv : List (Str × Nat) := (List.range 256).map (fun i => ([i], i))

/-- The insert-if-absent step used for the boundary marker (lines 216-219)
and for each special token (lines 223-227): when the string is not yet an
inverse_vocab key, give it the fresh id len(vocab) in both dicts. -/
def addIfAbsent (vi : List (Nat × Str) × List (Str × Nat)) (s : Str) :
    List (Nat × Str) × List (Str × Nat) :=
  if (dictGet? vi.2 s).isSome then vi
  else (dictInsert vi.1 vi.1.length s, dictInsert vi.2 s vi.1.length)

/-- The vocabulary set up by train before the merge loop (lines 211-227):
the 256 byte entries, then the boundary marker, then the special tokens in
iteration order. -/
def trainInit (specials : List Str) : List (Nat × Str) × List (Str × Nat) :=
  specials.foldl addIfAbsent (addIfAbsent (baseVocab, baseInv) [gMark])

/-- The working id sequence of train (line 230): each preprocessed corpus
character looked up in the inverse vocabulary. A character missing from the
vocabulary would raise KeyError in Python; it is modelled by the default
id 0 (the statements proved below hold for arbitrary id sequences, so no
theorem depends on this default). -/
def trainInitIds (text : Str) (specials : List Str) : List Nat :=
  (preprocess text).map (fun c => (dictGet? (trainInit specials).2 [c]).getD 0)

/-- The merge loop of train (lines 233-245). While len(vocab) < vocab_size:
find the most frequent pair of the working ids; stop when None; otherwise
allocate pair_id = max(vocab) + 1, record the merge, give the concatenated
string that id in both dicts, and replace the pair in the working ids.
The final Bool is ghost instrumentation recording that no iteration created
a merged string that was already an inverse_vocab key (it lets the amended
bijection statement be phrased as an executable hypothesis); it does not
influence the three computed dicts. Looking up vocab at the pair components
uses the default empty string; as for trainInitIds the default is
unreachable whenever the working ids are vocabulary keys. -/
def trainLoop (vocabSize : Nat) (vocab : List (Nat × Str)) (inv : List (Str × Nat))
    (merges : Merges) (ids : List Nat) (ok : Bool) :
    List (Nat × Str) × List (Str × Nat) × Merges × Bool :=
  if h : vocab.length < vocabSize then
    match find_freq_pair ids with
    | none => (vocab, inv, merges, ok)
    | some p =>
        trainLoop vocabSize
          (dictInsert vocab (maxKey vocab + 1)
            ((dictGet? vocab p.1).getD [] ++ (dictGet? vocab p.2).getD []))
          (dictInsert inv
            ((dictGet? vocab p.1).getD [] ++ (dictGet? vocab p.2).getD [])
            (maxKey vocab + 1))
          (dictInsert merges p (maxKey vocab + 1))
          (replace_pair ids p (maxKey vocab + 1))
          (ok && !(dictGet? inv
            ((dictGet? vocab p.1).getD [] ++ (dictGet? vocab p.2).getD [])).isSome)
  else (vocab, inv, merges, ok)
termination_by vocabSize - vocab.length
decreasing_by
  have aux1 : ∀ (l : List (Nat × Str)) (a : Nat), a ≤ l.foldl (fun b q => max b q.1) a := by
    intro l
    induction l with
    | nil => intro a; exact le_refl a
    | cons x xs ih => intro a; exact le_trans (le_max_left a x.1) (ih (max a x.1))
  have aux2 : ∀ (l : List (Nat × Str)) (a : Nat) (q : Nat × Str), q ∈ l →
      q.1 ≤ l.foldl (fun b q => max b q.1) a := by
    intro l
    induction l with
    | nil => intro a q hq; cases hq
    | cons x xs ih =>
        intro a q hq
        rcases List.mem_cons.mp hq with h1 | h1
        · subst h1; exact le_trans (le_max_right a q.1) (aux1 xs (max a q.1))
        · exact ih (max a x.1) q h1
  have hfresh : vocab.any (fun q => q.1 = maxKey vocab + 1) = false := by
    rw [List.any_eq_false]
    intro q hq
    simp only [decide_eq_true_eq]
    have h2 := aux2 vocab 0 q hq
    unfold maxKey
    omega
  unfold dictInsert
  rw [if_neg (by simp [hfresh])]
  rw [List.length_append]
  simp only [List.length_singleton]
  omega

/-- A computation companion to trainLoop: the same loop body, with the
guard len(vocab) < vocab_size replaced by a fuel count that starts at
vocab_size - len(vocab). Each iteration enlarges vocab by exactly one
entry (the key max(vocab)+1 is always fresh), so the fuel hitting 0 is
exactly the guard failing; trainLoop_eq_C below proves the two loops
equal. This version is structurally recursive, hence usable in kernel
evaluation. -/
def trainLoopC : Nat → List (Nat × Str) → List (Str × Nat) → Merges → List Nat → Bool →
    List (Nat × Str) × List (Str × Nat) × Merges × Bool
  | 0, vocab, inv, merges, _, ok => (vocab, inv, merges, ok)
  | fuel + 1, vocab, inv, merges, ids, ok =>
      match find_freq_pair ids with
      | none => (vocab, inv, merges, ok)
      | some p =>
          trainLoopC fuel
            (dictInsert vocab (maxKey vocab + 1)
              ((dictGet? vocab p.1).getD [] ++ (dictGet? vocab p.2).getD []))
            (dictInsert inv
              ((dictGet? vocab p.1).getD [] ++ (dictGet? vocab p.2).getD [])
              (maxKey vocab + 1))
            (dictInsert merges p (maxKey vocab + 1))
            (replace_pair ids p (maxKey vocab + 1))
            (ok && !(dictGet? inv
              ((dictGet? vocab p.1).getD [] ++ (dictGet? vocab p.2).getD [])).isSome)

/-- train (lines 185-245) on a given tokenizer state, together with the
ghost collision-freedom flag of the merge loop. The vocab and
inverse_vocab are rebuilt from the base alphabet; bpe_merges continues
from the state's existing table. -/
def trainFull (tok : Tokenizer) (text : Str) (vocabSize : Nat)
    (specials : List Str) : Tokenizer × Bool :=
  let vi := trainInit specials
  let r := trainLoop vocabSize vi.1 vi.2 tok.bpe_merges (trainInitIds text specials) true
  (⟨r.1, r.2.1, r.2.2.1⟩, r.2.2.2)

/-- train: the tokenizer state after training. -/
def train (tok : Tokenizer) (text : Str) (vocabSize : Nat)
    (specials : List Str) : Tokenizer :=
  (trainFull tok text vocabSize specials).1

/-- True when no iteration of the merge loop of this train call produced a
merged token string that was already an inverse_vocab key. -/
def trainCollisionFree (tok : Tokenizer) (text : Str) (vocabSize : Nat)
    (specials : List Str) : Bool :=
  (trainFull tok text vocabSize specials).2

/-- trainFull with the fuel-counting loop, for kernel evaluation; proved
equal to trainFull below. -/
def trainFullC (tok : Tokenizer) (text : Str) (vocabSize : Nat)
    (specials : List Str) : Tokenizer × Bool :=
  let vi := trainInit specials
  let r := trainLoopC (vocabSize - vi.1.length) vi.1 vi.2 tok.bpe_merges
    (trainInitIds text specials) true
  (⟨r.1, r.2.1, r.2.2.1⟩, r.2.2.2)

/-- train with the fuel-counting loop, for kernel evaluation. -/
def trainC (tok : Tokenizer) (text : Str) (vocabSize : Nat)
    (specials : List Str) : Tokenizer :=
  (trainFullC tok text vocabSize specials).1

/-- trainCollisionFree with the fuel-counting loop, for kernel evaluation. -/
def trainCollisionFreeC (tok : Tokenizer) (text : Str) (vocabSize : Nat)
    (specials : List Str) : Bool :=
  (trainFullC tok text vocabSize specials).2

/-- Whether the pattern is a leading subsequence of the string: the worker
behind containsSeq. -/
def leadMatch : Str → Str → Bool
  | [], _ => true
  | _ :: _, [] => false
  | a :: as, b :: bs => a = b && leadMatch as bs

/-- Python substring membership pat in s: pat occurs contiguously in s. -/
def containsSeq (pat : Str) : Str → Bool
  | [] => leadMatch pat []
  | c :: rest => leadMatch pat (c :: rest) || containsSeq pat rest

/-- The special-token shape test of encode (lines 87 and 107):
token.startswith of the two characters less-than bar, and token.endswith
of the two characters bar greater-than. -/
def isSpecialShaped (t : Str) : Bool :=
  leadMatch [60, 124] t && leadMatch [124, 62] (t.drop (t.length - 2))

/-- The failure modes of encode, named as in the spec's error taxonomy;
in the Python source the first three are ValueError and the last a
KeyError escaping from the inverse_vocab character lookup. -/
inductive EncodeError
  | notTrained
  | unknownSpecial (t : Str)
  | disallowedSpecial (t : Str)
  | unknownChar (c : Nat)
deriving DecidableEq

/-- The character-to-id mapping of encode (line 120): left-to-right lookup
of each character, failing at the first character absent from the
inverse vocabulary. -/
def lookupChars (inv : List (Str × Nat)) : Str → Except Nat (List Nat)
  | [] => .ok []
  | c :: rest =>
      match dictGet? inv [c] with
      | none => .error c
      | some id => Except.map (fun ids => id :: ids) (lookupChars inv rest)

/-- encode called without allowed_specials (lines 30-33 and 104-121): fail
when untrained; empty text encodes to the empty sequence; fail when an
inverse-vocab token shaped like a special occurs in the text (scanning
inverse_vocab in insertion order); otherwise preprocess, map characters to
ids and run the merge sweep. -/
def encode (tok : Tokenizer) (text : Str) : Except EncodeError (List Nat) :=
  if tok.vocab.length = 0 then .error .notTrained
  else if text.length = 0 then .ok []
  else
    match tok.inverse_vocab.find? (fun p => isSpecialShaped p.1 && containsSeq p.1 text) with
    | some p => .error (.disallowedSpecial p.1)
    | none =>
        match lookupChars tok.inverse_vocab (preprocess text) with
        | .error c => .error (.unknownChar c)
        | .ok ids => .ok (apply_merges tok.bpe_merges ids)

/-- Worker for Python str.find: the smallest index at or after i where the
pattern is a leading match of the remaining suffix (the empty pattern
matches everywhere, including at the very end). -/
def strFindAux (pat : Str) : Str → Nat → Option Nat
  | [], i => if leadMatch pat [] then some i else none
  | c :: rest, i =>
      if leadMatch pat (c :: rest) then some i else strFindAux pat rest (i + 1)

/-- Python text.find(pat, start): the lowest absolute index at or beyond
start where pat occurs, none standing for -1; a start beyond the text
length finds nothing, as in Python. -/
def strFind? (s pat : Str) (start : Nat) : Option Nat :=
  if s.length < start then none else strFindAux pat (s.drop start) start

/-- The earliest-special scan of encode (lines 55-63): found_pos starts at
len(text); each allowed special is looked up from the current position and
taken only when strictly earlier than the best so far, so the first
special in iteration order wins position ties. -/
def findEarliest (text : Str) (pos : Nat) (allowed : List Str) : Nat × Option Str :=
  allowed.foldl
    (fun acc sp =>
      match strFind? text sp pos with
      | none => acc
      | some p => if p < acc.1 then (p, some sp) else acc)
    (text.length, none)

/-- The segmentation while-loop of encode (lines 51-76), with the segments
list as the accumulator acc: while the position is inside the text, find
the earliest allowed special; if one is found, append the ordinary chunk
before it (when non-empty) and the special itself and jump past it,
otherwise append the rest of the text and stop. The loop is run on fuel
len(text) + 1, which suffices whenever every allowed special is non-empty
(each iteration then advances the position); on an empty allowed special
the Python loop never terminates, and no theorem below covers that case. -/
def segmentsGo (text : Str) (allowed : List Str) : Nat → Nat → List Str → List Str
  | 0, _, acc => acc
  | fuel + 1, pos, acc =>
      if pos < text.length then
        match (findEarliest text pos allowed).2 with
        | some sp =>
            segmentsGo text allowed fuel ((findEarliest text pos allowed).1 + sp.length)
              (acc ++
                (if pos < (findEarliest text pos allowed).1 then
                  [(text.drop pos).take ((findEarliest text pos allowed).1 - pos)]
                else []) ++ [sp])
        | none => acc ++ [text.drop pos]
      else acc

/-- The segments of the text, alternating ordinary chunks and allowed
specials, as built by encode's segmentation loop. -/
def segmentsOf (text : Str) (allowed : List Str) : List Str :=
  segmentsGo text allowed (text.length + 1) 0 []

/-- The per-segment processing loop of encode (lines 78-102): an allowed
special contributes its single id (its lookup cannot fail after the
validation loop; the unreachable KeyError is modelled as unknownSpecial);
an ordinary segment is first scanned against the whole inverse vocabulary
in insertion order for a contained special-shaped token outside the
allowed set, raising the disallowed error on the first hit, then
preprocessed with segment-relative indices, mapped to ids and swept with
the merge table; segment results are concatenated in order. -/
def encodeSegments (tok : Tokenizer) (allowed : List Str) :
    List Str → Except EncodeError (List Nat)
  | [] => .ok []
  | seg :: rest =>
      if seg ∈ allowed then
        match dictGet? tok.inverse_vocab seg with
        | none => .error (.unknownSpecial seg)
        | some id =>
            Except.map (fun ids => id :: ids) (encodeSegments tok allowed rest)
      else
        match tok.inverse_vocab.find? (fun p =>
            isSpecialShaped p.1 && containsSeq p.1 seg && !(decide (p.1 ∈ allowed))) with
        | some p => .error (.disallowedSpecial p.1)
        | none =>
            match lookupChars tok.inverse_vocab (preprocess seg) with
            | .error c => .error (.unknownChar c)
            | .ok ids0 =>
                Except.map (fun ids => apply_merges tok.bpe_merges ids0 ++ ids)
                  (encodeSegments tok allowed rest)

/-- encode called with a non-empty allowed_specials set (lines 30-33 and
36-103): the shared untrained and empty-text checks, then the validation
loop raising on the first allowed special missing from the vocabulary
(lines 37-40), the whole-text shortcut when the text itself is an allowed
registered special (lines 42-44), and otherwise segmentation followed by
per-segment processing. The allowed set is modelled as a list in its
iteration order. -/
def encodeWith (tok : Tokenizer) (text : Str) (allowed : List Str) :
    Except EncodeError (List Nat) :=
  if tok.vocab.length = 0 then .error .notTrained
  else if text.length = 0 then .ok []
  else
    match allowed.find? (fun sp => !(dictGet? tok.inverse_vocab sp).isSome) with
    | some sp => .error (.unknownSpecial sp)
    | none =>
        if text ∈ allowed ∧ (dictGet? tok.inverse_vocab text).isSome then
          .ok [(dictGet? tok.inverse_vocab text).getD 0]
        else
          encodeSegments tok allowed (segmentsOf text allowed)

/-- The boundary-marker reversal of decode (line 146): every occurrence of
the marker becomes a space (a one-character str.replace is a per-character
map). -/
def replaceG (s : Str) : Str := s.map (fun c => if c = gMark then spaceCp else c)

/-- decode (lines 123-148): empty input gives the empty string; any id
absent from the vocabulary is a ValueError, modelled as none; otherwise
concatenate the ids' strings and reverse the boundary marker. -/
def decode (tok : Tokenizer) (ids : List Nat) : Option Str :=
  if ids.length = 0 then some []
  else if ids.all (fun i => (dictGet? tok.vocab i).isSome) then
    some (replaceG ((ids.map (fun i => (dictGet? tok.vocab i).getD [])).flatten))
  else none

example : replace_pair [1, 2, 3, 1, 2] (1, 2) 4 = [4, 3, 4] := by decide
example : replace_pair [1, 2, 1, 2] (1, 2) 3 = [3, 3] := by decide
example : find_freq_pair [1, 2, 3, 1, 2] = some (1, 2) := by decide
example : find_freq_pair [] = none := by decide
example : find_freq_pair [1] = none := by decide
example : find_freq_pair [1, 2, 3, 4, 3, 4] = some (3, 4) := by decide
example : preprocess [32, 97] = [97] := by decide
example : preprocess [104, 105, 32, 97] = [104, 105, 288, 97] := by decide
example : apply_merges [((1, 2), 5), ((5, 3), 6)] [1, 2, 3] = [5, 3] := by decide

/-! Helper lemmas about the dict model and the training loop. -/

theorem foldl_max_le_init {β : Type} (l : List (Nat × β)) :
    ∀ a : Nat, a ≤ l.foldl (fun b q => max b q.1) a := by
  induction l with
  | nil => intro a; exact le_refl a
  | cons x xs ih => intro a; exact le_trans (le_max_left a x.1) (ih (max a x.1))

theorem foldl_max_mem {β : Type} (m : List (Nat × β)) :
    ∀ (a : Nat) (q : Nat × β), q ∈ m → q.1 ≤ m.foldl (fun b p => max b p.1) a := by
  induction m with
  | nil => intro a q hq; cases hq
  | cons x xs ih =>
      intro a q hq
      rcases List.mem_cons.mp hq with h1 | h1
      · subst h1
        exact le_trans (le_max_right a q.1) (foldl_max_le_init xs (max a q.1))
      · exact ih (max a x.1) q h1

theorem le_maxKey {β : Type} (m : List (Nat × β)) (q : Nat × β) (hq : q ∈ m) :
    q.1 ≤ maxKey m :=
  foldl_max_mem m 0 q hq

theorem maxKey_fresh {β : Type} (m : List (Nat × β)) :
    m.any (fun q => q.1 = maxKey m + 1) = false := by
  rw [List.any_eq_false]
  intro q hq
  simp only [decide_eq_true_eq]
  have h2 := le_maxKey m q hq
  omega

theorem dictInsert_length_fresh {α β : Type} [DecidableEq α]
    (m : List (α × β)) (k : α) (v : β)
    (h : m.any (fun q => q.1 = k) = false) :
    (dictInsert m k v).length = m.length + 1 := by
  unfold dictInsert
  rw [if_neg (by simp [h])]
  simp

theorem trainLoop_eq_C (vocabSize fuel : Nat) :
    ∀ (vocab : List (Nat × Str)) (inv : List (Str × Nat)) (merges : Merges)
      (ids : List Nat) (ok : Bool), vocabSize - vocab.length = fuel →
      trainLoop vocabSize vocab inv merges ids ok =
        trainLoopC fuel vocab inv merges ids ok := by
  induction fuel with
  | zero =>
      intro vocab inv merges ids ok hf
      have hge : ¬ vocab.length < vocabSize := by omega
      rw [trainLoop, trainLoopC]
      simp [hge]
  | succ n ih =>
      intro vocab inv merges ids ok hf
      have hlt : vocab.length < vocabSize := by omega
      rw [trainLoop, trainLoopC]
      simp only [dif_pos hlt]
      cases hffp : find_freq_pair ids with
      | none => rfl
      | some p =>
          apply ih
          rw [dictInsert_length_fresh _ _ _ (maxKey_fresh _)]
          omega

theorem trainFull_eq_C (tok : Tokenizer) (text : Str) (vocabSize : Nat)
    (specials : List Str) :
    trainFull tok text vocabSize specials = trainFullC tok text vocabSize specials := by
  simp only [trainFull, trainFullC]
  rw [trainLoop_eq_C _ _ _ _ _ _ _ rfl]

theorem train_eq_C (tok : Tokenizer) (text : Str) (vocabSize : Nat)
    (specials : List Str) :
    train tok text vocabSize specials = trainC tok text vocabSize specials := by
  unfold train trainC
  rw [trainFull_eq_C]

theorem trainCollisionFree_eq_C (tok : Tokenizer) (text : Str) (vocabSize : Nat)
    (specials : List Str) :
    trainCollisionFree tok text vocabSize specials =
      trainCollisionFreeC tok text vocabSize specials := by
  unfold trainCollisionFree trainCollisionFreeC
  rw [trainFull_eq_C]

theorem preprocessFrom_pos (t : Str) :
    ∀ i : Nat, i ≠ 0 →
      preprocessFrom i t = t.map (fun d => if d = spaceCp then gMark else d) := by
  induction t with
  | nil => intro i _; rfl
  | cons c rest ih =>
      intro i hi
      rw [preprocessFrom, ih (i + 1) (Nat.succ_ne_zero i), List.map_cons]
      by_cases hc : c = spaceCp
      · simp [hc, hi]
      · simp [hc]

theorem preprocess_eq_amended (t : Str) : preprocess t = preprocessAmended t := by
  cases t with
  | nil => rfl
  | cons c rest =>
      rw [preprocess, preprocessFrom, preprocessFrom_pos rest 1 (by omega),
        preprocessAmended]
      by_cases hc : c = spaceCp
      · simp [hc]
      · simp [hc]

theorem replacePairGo_eq (p : Nat × Nat) (n : Nat) :
    ∀ (acc ids : List Nat), replacePairGo p n acc ids = acc ++ replacePairSpec ids p n
  | acc, [] => by simp [replacePairGo, replacePairSpec]
  | acc, [x] => by simp [replacePairGo, replacePairSpec]
  | acc, x :: y :: rest => by
      rw [replacePairGo, replacePairSpec]
      by_cases h : (x, y) = p
      · rw [if_pos h, if_pos h, replacePairGo_eq p n (acc ++ [n]) rest]
        simp
      · rw [if_neg h, if_neg h, replacePairGo_eq p n (acc ++ [x]) (y :: rest)]
        simp

theorem replace_pair_eq_spec (ids : List Nat) (p : Nat × Nat) (n : Nat) :
    replace_pair ids p n = replacePairSpec ids p n := by
  rw [replace_pair, replacePairGo_eq]
  rfl

theorem dictGet?_single (p : Nat × Nat) (n : Nat) (q : Nat × Nat) :
    dictGet? [(p, n)] q = if q = p then some n else none := by
  by_cases h : q = p
  · subst h; simp [dictGet?]
  · have hpq : ¬ p = q := fun hc => h hc.symm
    simp [dictGet?, List.find?, hpq, h]

theorem applyMergesGo_single (p : Nat × Nat) (n : Nat) :
    ∀ (acc ids : List Nat), applyMergesGo [(p, n)] acc ids = replacePairGo p n acc ids
  | acc, [] => by rw [applyMergesGo, replacePairGo]
  | acc, [x] => by rw [applyMergesGo, replacePairGo]
  | acc, x :: y :: rest => by
      rw [applyMergesGo, replacePairGo, dictGet?_single]
      by_cases h : (x, y) = p
      · rw [if_pos h, if_pos h]
        exact applyMergesGo_single p n (acc ++ [n]) rest
      · rw [if_neg h, if_neg h]
        exact applyMergesGo_single p n (acc ++ [x]) (y :: rest)

theorem apply_merges_single (ids : List Nat) (p : Nat × Nat) (n : Nat) :
    apply_merges [(p, n)] ids = replace_pair ids p n := by
  rw [apply_merges, replace_pair]
  by_cases h : ids.length ≤ 1
  · rw [if_pos h]
    match ids, h with
    | [], _ => rfl
    | [x], _ => rfl
  · rw [if_neg h, applyMergesGo_single]

theorem firstIdx_append_of_mem {l1 : List (Nat × Nat)} (l2 : List (Nat × Nat))
    {q : Nat × Nat} (h : q ∈ l1) : firstIdx (l1 ++ l2) q = firstIdx l1 q := by
  induction l1 with
  | nil => cases h
  | cons x xs ih =>
      rw [List.cons_append, firstIdx, firstIdx]
      by_cases hx : x = q
      · rw [if_pos hx, if_pos hx]
      · rw [if_neg hx, if_neg hx, ih (List.mem_of_ne_of_mem (fun he => hx he.symm) h)]

theorem firstIdx_lt_length {l : List (Nat × Nat)} {q : Nat × Nat} (h : q ∈ l) :
    firstIdx l q < l.length := by
  induction l with
  | nil => cases h
  | cons x xs ih =>
      rw [firstIdx, List.length_cons]
      by_cases hx : x = q
      · rw [if_pos hx]
        omega
      · rw [if_neg hx]
        have := ih (List.mem_of_ne_of_mem (fun he => hx he.symm) h)
        omega

theorem firstIdx_append_of_not_mem {l1 : List (Nat × Nat)} (l2 : List (Nat × Nat))
    {q : Nat × Nat} (h : q ∉ l1) :
    firstIdx (l1 ++ l2) q = l1.length + firstIdx l2 q := by
  induction l1 with
  | nil => simp [firstIdx]
  | cons x xs ih =>
      rw [List.cons_append, firstIdx, List.length_cons]
      have hx : ¬ x = q := fun he => h (he ▸ List.mem_cons_self x xs)
      rw [if_neg hx, ih (fun hm => h (List.mem_cons_of_mem x hm))]
      omega

theorem counter_invariant (ps : List (Nat × Nat)) :
    ∀ (rest seen : List (Nat × Nat)) (acc : List ((Nat × Nat) × Nat)),
      ps = seen ++ rest →
      (∀ q c, (q, c) ∈ acc ↔ (q ∈ seen ∧ c = seen.count q)) →
      acc.Pairwise (fun x y => firstIdx ps x.1 < firstIdx ps y.1) →
      (∀ q c, (q, c) ∈ rest.foldl counterStep acc ↔ (q ∈ ps ∧ c = ps.count q)) ∧
        (rest.foldl counterStep acc).Pairwise
          (fun x y => firstIdx ps x.1 < firstIdx ps y.1) := by
  intro rest
  induction rest with
  | nil =>
      intro seen acc hps h1 h2
      rw [List.append_nil] at hps
      subst hps
      exact ⟨h1, h2⟩
  | cons p rest' ih =>
      intro seen acc hps h1 h2
      rw [List.foldl_cons]
      refine ih (seen ++ [p]) (counterStep acc p) (by simp [hps]) ?_ ?_
      · intro q c
        unfold counterStep
        by_cases hany : acc.any (fun q => q.1 = p) = true
        · have hpseen : p ∈ seen := by
            rcases List.any_eq_true.mp hany with ⟨e, he, hdec⟩
            have hep : e.1 = p := by simpa using hdec
            have := (h1 e.1 e.2).mp (by simpa using he)
            rw [hep] at this
            exact this.1
          rw [if_pos hany]
          constructor
          · intro hq
            rcases List.mem_map.mp hq with ⟨e, he, hfe⟩
            by_cases hep : e.1 = p
            · rw [if_pos hep] at hfe
              have h3 := (h1 e.1 e.2).mp (by simpa using he)
              have hq1 : q = e.1 := (congrArg Prod.fst hfe).symm
              have hc : c = e.2 + 1 := (congrArg Prod.snd hfe).symm
              subst hq1
              refine ⟨by simp [h3.1], ?_⟩
              rw [hc, h3.2, List.count_append, hep]
              simp
            · rw [if_neg hep] at hfe
              have h3 := (h1 e.1 e.2).mp (by simpa using he)
              have hq1 : q = e.1 := (congrArg Prod.fst hfe).symm
              have hc : c = e.2 := (congrArg Prod.snd hfe).symm
              subst hq1
              refine ⟨by simp [h3.1], ?_⟩
              have hz : List.count e.1 [p] = 0 := by
                rw [List.count_eq_zero]
                simp [hep]
              rw [hc, h3.2, List.count_append]
              omega
          · rintro ⟨hqmem, hqc⟩
            by_cases hqp : q = p
            · subst hqp
              have hcc : c = List.count q seen + 1 := by
                rw [hqc, List.count_append, List.count_singleton_self]
              have hacc : (q, List.count q seen) ∈ acc :=
                (h1 q (List.count q seen)).mpr ⟨hpseen, rfl⟩
              refine List.mem_map.mpr ⟨(q, List.count q seen), hacc, ?_⟩
              simp [hcc]
            · have hqseen : q ∈ seen := by
                rcases List.mem_append.mp hqmem with h | h
                · exact h
                · exact absurd (List.mem_singleton.mp h) hqp
              have hz : List.count q [p] = 0 := by
                rw [List.count_eq_zero]
                simp [hqp]
              have hcc : c = List.count q seen := by
                rw [hqc, List.count_append]
                omega
              have hacc : (q, List.count q seen) ∈ acc :=
                (h1 q (List.count q seen)).mpr ⟨hqseen, rfl⟩
              refine List.mem_map.mpr ⟨(q, List.count q seen), hacc, ?_⟩
              simp [hqp, hcc]
        · have hnp : ∀ e ∈ acc, e.1 ≠ p := by
            intro e he hep
            exact hany (List.any_eq_true.mpr ⟨e, he, by simpa using hep⟩)
          have hpns : p ∉ seen := by
            intro hc
            exact hnp (p, List.count p seen) ((h1 p (List.count p seen)).mpr ⟨hc, rfl⟩) rfl
          rw [if_neg hany]
          constructor
          · intro hq
            rcases List.mem_append.mp hq with h | h
            · have h3 := (h1 q c).mp h
              have hqp : q ≠ p := fun he => hpns (he ▸ h3.1)
              refine ⟨by simp [h3.1], ?_⟩
              have hz : List.count q [p] = 0 := by
                rw [List.count_eq_zero]
                simp [hqp]
              rw [h3.2, List.count_append]
              omega
            · have hmem := List.mem_singleton.mp h
              have h3q : q = p := congrArg Prod.fst hmem
              have h3c : c = 1 := congrArg Prod.snd hmem
              refine ⟨by simp [h3q], ?_⟩
              rw [h3q, h3c, List.count_append, List.count_eq_zero_of_not_mem hpns]
              simp
          · rintro ⟨hqmem, hqc⟩
            by_cases hqp : q = p
            · subst hqp
              have : c = 1 := by
                rw [hqc, List.count_append, List.count_eq_zero_of_not_mem hpns]
                simp
              subst this
              simp
            · have hqseen : q ∈ seen := by
                rcases List.mem_append.mp hqmem with h | h
                · exact h
                · exact absurd (List.mem_singleton.mp h) hqp
              have hz : List.count q [p] = 0 := by
                rw [List.count_eq_zero]
                simp [hqp]
              have hcc : c = List.count q seen := by
                rw [hqc, List.count_append]
                omega
              exact List.mem_append.mpr (Or.inl ((h1 q c).mpr ⟨hqseen, hcc⟩))
      · unfold counterStep
        by_cases hany : acc.any (fun q => q.1 = p) = true
        · rw [if_pos hany]
          rw [List.pairwise_map]
          refine h2.imp ?_
          intro a b hab
          have hfa : (if a.1 = p then (a.1, a.2 + 1) else a).1 = a.1 := by
            by_cases h : a.1 = p
            · rw [if_pos h]
            · rw [if_neg h]
          have hfb : (if b.1 = p then (b.1, b.2 + 1) else b).1 = b.1 := by
            by_cases h : b.1 = p
            · rw [if_pos h]
            · rw [if_neg h]
          rw [hfa, hfb]
          exact hab
        · have hnp : ∀ e ∈ acc, e.1 ≠ p := by
            intro e he hep
            exact hany (List.any_eq_true.mpr ⟨e, he, by simpa using hep⟩)
          have hpns : p ∉ seen := by
            intro hc
            exact hnp (p, seen.count p) ((h1 p (seen.count p)).mpr ⟨hc, rfl⟩) rfl
          rw [if_neg hany]
          rw [List.pairwise_append]
          refine ⟨h2, List.pairwise_singleton _ _, ?_⟩
          intro a ha b hb
          have hb1 : b = (p, 1) := List.mem_singleton.mp hb
          have ha1 : a.1 ∈ seen := ((h1 a.1 a.2).mp (by simpa using ha)).1
          have hseenlt : firstIdx ps a.1 < seen.length := by
            rw [hps, firstIdx_append_of_mem _ ha1]
            exact firstIdx_lt_length ha1
          have hplen : firstIdx ps b.1 = seen.length := by
            rw [hb1, hps, firstIdx_append_of_not_mem _ hpns]
            rw [firstIdx, if_pos rfl]
            omega
          omega

theorem counterOf_spec (ps : List (Nat × Nat)) :
    (∀ q c, (q, c) ∈ counterOf ps ↔ (q ∈ ps ∧ c = ps.count q)) ∧
      (counterOf ps).Pairwise (fun x y => firstIdx ps x.1 < firstIdx ps y.1) :=
  counter_invariant ps ps [] [] rfl (by simp) (by simp)

theorem foldl_pickMax_ge (xs : List ((Nat × Nat) × Nat)) :
    ∀ best : (Nat × Nat) × Nat, best.2 ≤ (xs.foldl pickMax best).2 := by
  induction xs with
  | nil => intro best; exact le_refl _
  | cons q xs ih =>
      intro best
      rw [List.foldl_cons]
      refine le_trans ?_ (ih (pickMax best q))
      unfold pickMax
      by_cases h : q.2 > best.2
      · rw [if_pos h]; omega
      · rw [if_neg h]

theorem foldl_pickMax_split (xs : List ((Nat × Nat) × Nat)) :
    ∀ best : (Nat × Nat) × Nat, ∃ l1 l2,
      best :: xs = l1 ++ (xs.foldl pickMax best) :: l2 ∧
        (∀ e ∈ l1, e.2 < (xs.foldl pickMax best).2) ∧
        (∀ e ∈ l2, e.2 ≤ (xs.foldl pickMax best).2) := by
  induction xs with
  | nil =>
      intro best
      exact ⟨[], [], rfl, fun e he => absurd he (List.not_mem_nil e),
        fun e he => absurd he (List.not_mem_nil e)⟩
  | cons q xs ih =>
      intro best
      rw [List.foldl_cons]
      by_cases hq : q.2 > best.2
      · have hpick : pickMax best q = q := by rw [pickMax, if_pos hq]
        rw [hpick]
        obtain ⟨l1, l2, heq, h1, h2⟩ := ih q
        refine ⟨best :: l1, l2, ?_, ?_, h2⟩
        · rw [List.cons_append, ← heq]
        · intro e he
          rcases List.mem_cons.mp he with h | h
          · subst h
            have := foldl_pickMax_ge xs q
            omega
          · exact h1 e h
      · have hpick : pickMax best q = best := by rw [pickMax, if_neg hq]
        rw [hpick]
        obtain ⟨l1, l2, heq, h1, h2⟩ := ih best
        cases l1 with
        | nil =>
            rw [List.nil_append] at heq
            have hr : xs.foldl pickMax best = best := (List.cons.inj heq).1.symm
            have hl2 : l2 = xs := (List.cons.inj heq).2.symm
            refine ⟨[], q :: l2, ?_, fun e he => absurd he (List.not_mem_nil e), ?_⟩
            · rw [List.nil_append, hr, hl2]
            · intro e he
              rcases List.mem_cons.mp he with h | h
              · subst h
                rw [hr]
                omega
              · exact h2 e h
        | cons b l1' =>
            rw [List.cons_append] at heq
            have hb : b = best := (List.cons.inj heq).1.symm
            have hxs : xs = l1' ++ (xs.foldl pickMax best) :: l2 := (List.cons.inj heq).2
            have hbest : best.2 < (xs.foldl pickMax best).2 := by
              have := h1 b (List.mem_cons_self b l1')
              rw [hb] at this
              exact this
            refine ⟨best :: q :: l1', l2, ?_, ?_, h2⟩
            · rw [List.cons_append, List.cons_append, ← hxs]
            · intro e he
              rcases List.mem_cons.mp he with h | h
              · subst h; exact hbest
              · rcases List.mem_cons.mp h with h' | h'
                · subst h'; omega
                · exact h1 e (List.mem_cons_of_mem b h')

theorem pairsOf_ne_nil : ∀ {ids : List Nat}, 2 ≤ ids.length → pairsOf ids ≠ []
  | _ :: _ :: _, _ => by simp [pairsOf]

/-! Claim theorems. -/

/-- C2 counterexample: on the text consisting of a space followed by a
letter a, the space is the very first character of the text, yet the
source's preprocessing does not keep it as a literal space (it drops it),
contradicting the claim as stated. -/
theorem preprocess_leading_space_cex :
    preprocess [32, 97] ≠ preprocessClaimed [32, 97] := by decide

/-- C2 (amended): in the boundary-marker preprocessing used by encode and
train, a space that is the very first character of the text is dropped
altogether (it is neither kept nor replaced); every other space is
replaced by the boundary-marker character; every non-space character is
kept. -/
theorem preprocess_amended_correct : ∀ t : Str, preprocess t = preprocessAmended t :=
  preprocess_eq_amended

/-- C6: replace_pair is the single greedy left-to-right pass described by
the spec (replacePairSpec): when the current and next id equal the pair it
emits new_id and advances two positions, otherwise it emits the current id
and advances one; and the spec's two concrete scenarios hold. The pass
builds a fresh list, the input list being untouched by construction in
this functional model. -/
theorem replace_pair_correct :
    (∀ (ids : List Nat) (p : Nat × Nat) (n : Nat),
        replace_pair ids p n = replacePairSpec ids p n) ∧
      replace_pair [1, 2, 3, 1, 2] (1, 2) 4 = [4, 3, 4] ∧
      replace_pair [1, 2, 1, 2] (1, 2) 3 = [3, 3] :=
  ⟨replace_pair_eq_spec, by decide, by decide⟩

/-- C5: apply_merges is one greedy left-to-right sweep with the same
mechanics as replace_pair, checking each adjacent pair against the entire
merge table: on a singleton table it coincides with replace_pair, and on
the table mapping (1,2) to 5 and (5,3) to 6 the input [1,2,3] sweeps to
[5,3], whose adjacent pair (5,3) is still in the table, so a further
sweep would merge again (the sweep is not iterated to a fixed point). -/
theorem apply_merges_single_sweep :
    (∀ (ids : List Nat) (p : Nat × Nat) (n : Nat),
        apply_merges [(p, n)] ids = replace_pair ids p n) ∧
      apply_merges [((1, 2), 5), ((5, 3), 6)] [1, 2, 3] = [5, 3] ∧
      dictGet? [((1, 2), 5), ((5, 3), 6)] (5, 3) = some 6 ∧
      apply_merges [((1, 2), 5), ((5, 3), 6)] [5, 3] = [6] :=
  ⟨apply_merges_single, by decide, by decide, by decide⟩

/-- C4: find_freq_pair returns None exactly when the sequence has fewer
than 2 elements or no adjacent pair occurs more than once; otherwise it
returns a pair of strictly maximal occurrence count among adjacent pairs
(counted at every adjacent position), and any distinct pair tied at that
count first occurs strictly later in the left-to-right scan. -/
theorem find_freq_pair_correct (ids : List Nat) :
    (find_freq_pair ids = none ↔
      ids.length < 2 ∨ ∀ q : Nat × Nat, List.count q (pairsOf ids) ≤ 1) ∧
    (∀ p : Nat × Nat, find_freq_pair ids = some p →
      2 ≤ List.count p (pairsOf ids) ∧
      (∀ q : Nat × Nat, List.count q (pairsOf ids) ≤ List.count p (pairsOf ids)) ∧
      (∀ q : Nat × Nat, q ≠ p →
        List.count q (pairsOf ids) = List.count p (pairsOf ids) →
        firstIdx (pairsOf ids) p < firstIdx (pairsOf ids) q)) := by
  by_cases hlen : ids.length < 2
  · constructor
    · rw [find_freq_pair, if_pos hlen]
      exact ⟨fun _ => Or.inl hlen, fun _ => rfl⟩
    · intro p hp
      rw [find_freq_pair, if_pos hlen] at hp
      cases hp
  · have h2 : 2 ≤ ids.length := by omega
    have hpne : pairsOf ids ≠ [] := pairsOf_ne_nil h2
    obtain ⟨hmem, hpair⟩ := counterOf_spec (pairsOf ids)
    cases hc : counterOf (pairsOf ids) with
    | nil =>
        exfalso
        obtain ⟨q0, hq0⟩ := List.exists_mem_of_ne_nil (pairsOf ids) hpne
        have := (hmem q0 (List.count q0 (pairsOf ids))).mpr ⟨hq0, rfl⟩
        rw [hc] at this
        cases this
    | cons x xs =>
        obtain ⟨l1, l2, heq, hl1, hl2⟩ := foldl_pickMax_split xs x
        set r := xs.foldl pickMax x with hr
        have hrmem : r ∈ counterOf (pairsOf ids) := by
          rw [hc, heq]
          exact List.mem_append.mpr (Or.inr (List.mem_cons_self _ _))
        have hrmem' : (r.1, r.2) ∈ counterOf (pairsOf ids) := by
          rw [Prod.mk.eta]
          exact hrmem
        have hrspec := (hmem r.1 r.2).mp hrmem'
        have hmax : ∀ q : Nat × Nat, List.count q (pairsOf ids) ≤ r.2 := by
          intro q
          by_cases hq : q ∈ pairsOf ids
          · have hqc : (q, List.count q (pairsOf ids)) ∈ counterOf (pairsOf ids) :=
              (hmem q _).mpr ⟨hq, rfl⟩
            rw [hc, heq] at hqc
            rcases List.mem_append.mp hqc with h | h
            · have := hl1 _ h
              omega
            · rcases List.mem_cons.mp h with h | h
              · have : List.count q (pairsOf ids) = r.2 := congrArg Prod.snd h
                omega
              · have := hl2 _ h
                omega
          · rw [List.count_eq_zero_of_not_mem hq]
            omega
        have hffp : find_freq_pair ids = if r.2 > 1 then some r.1 else none := by
          rw [find_freq_pair, if_neg hlen, hc]
          rfl
        constructor
        · constructor
          · intro hnone
            rw [hffp] at hnone
            by_cases hgt : r.2 > 1
            · rw [if_pos hgt] at hnone
              cases hnone
            · right
              intro q
              have := hmax q
              omega
          · intro hor
            rcases hor with h | h
            · exact absurd h hlen
            · rw [hffp]
              have hcount := h r.1
              have hle : r.2 ≤ 1 := by
                rw [hrspec.2]
                exact hcount
              rw [if_neg (by omega)]
        · intro p hp
          rw [hffp] at hp
          by_cases hgt : r.2 > 1
          · rw [if_pos hgt] at hp
            have hpr : p = r.1 := (Option.some.inj hp).symm
            subst hpr
            have hc2 := hrspec.2
            refine ⟨by omega, fun q => by have := hmax q; omega, ?_⟩
            intro q hqp hqcount
            have hqmemps : q ∈ pairsOf ids := by
              by_contra hq
              rw [List.count_eq_zero_of_not_mem hq] at hqcount
              omega
            have hqc : (q, List.count q (pairsOf ids)) ∈ counterOf (pairsOf ids) :=
              (hmem q _).mpr ⟨hqmemps, rfl⟩
            rw [hc, heq] at hqc
            rcases List.mem_append.mp hqc with h | h
            · have := hl1 _ h
              omega
            · rcases List.mem_cons.mp h with h | h
              · exact absurd (congrArg Prod.fst h) hqp
              · have hpw := hpair
                rw [hc, heq] at hpw
                rw [List.pairwise_append] at hpw
                have hcons := hpw.2.1
                rw [List.pairwise_cons] at hcons
                have := hcons.1 _ h
                simpa using this
          · rw [if_neg hgt] at hp
            cases hp

/-- C4 witness: the theorem applied at the concrete scan [1,2,3,1,2],
where find_freq_pair returns (1,2). -/
theorem find_freq_pair_correct_witness :
    2 ≤ List.count (1, 2) (pairsOf [1, 2, 3, 1, 2]) ∧
      (∀ q : Nat × Nat, List.count q (pairsOf [1, 2, 3, 1, 2]) ≤
        List.count (1, 2) (pairsOf [1, 2, 3, 1, 2])) ∧
      (∀ q : Nat × Nat, q ≠ (1, 2) →
        List.count q (pairsOf [1, 2, 3, 1, 2]) =
          List.count (1, 2) (pairsOf [1, 2, 3, 1, 2]) →
        firstIdx (pairsOf [1, 2, 3, 1, 2]) (1, 2) <
          firstIdx (pairsOf [1, 2, 3, 1, 2]) q) :=
  (find_freq_pair_correct [1, 2, 3, 1, 2]).2 (1, 2) (by decide)

/-! Shared dict lemmas used by the training-state theorems. -/

theorem dictGet?_append {α β : Type} [DecidableEq α] (l1 l2 : List (α × β)) (k : α) :
    dictGet? (l1 ++ l2) k =
      match dictGet? l1 k with
      | some v => some v
      | none => dictGet? l2 k := by
  induction l1 with
  | nil => simp [dictGet?]
  | cons a l1 ih =>
      rw [List.cons_append]
      by_cases ha : a.1 = k
      · unfold dictGet?
        rw [List.find?_cons_of_pos _ (by simpa using ha),
          List.find?_cons_of_pos _ (by simpa using ha)]
        rfl
      · unfold dictGet? at *
        rw [List.find?_cons_of_neg _ (by simpa using ha),
          List.find?_cons_of_neg _ (by simpa using ha)]
        exact ih

theorem dictGet?_isSome_eq_any {α β : Type} [DecidableEq α]
    (m : List (α × β)) (k : α) :
    (dictGet? m k).isSome = m.any (fun p => p.1 = k) := by
  induction m with
  | nil => simp [dictGet?]
  | cons a m ih =>
      rw [List.any_cons]
      by_cases ha : a.1 = k
      · unfold dictGet?
        rw [List.find?_cons_of_pos _ (by simpa using ha)]
        simp [ha]
      · unfold dictGet? at *
        rw [List.find?_cons_of_neg _ (by simpa using ha)]
        have h2 : decide (a.1 = k) = false := by simpa using ha
        rw [h2]
        simp only [Bool.false_or]
        exact ih

theorem dictInsert_fresh_eq_append {α β : Type} [DecidableEq α]
    (m : List (α × β)) (k : α) (v : β)
    (h : m.any (fun p => p.1 = k) = false) :
    dictInsert m k v = m ++ [(k, v)] := by
  rw [dictInsert, if_neg (by simp [h])]

theorem dictGet?_overwrite_ne {α β : Type} [DecidableEq α]
    (m : List (α × β)) (k t : α) (v : β) (ht : t ≠ k) :
    dictGet? (m.map (fun p => if p.1 = k then (k, v) else p)) t = dictGet? m t := by
  induction m with
  | nil => rfl
  | cons a m ih =>
      rw [List.map_cons]
      by_cases hak : a.1 = k
      · rw [if_pos hak]
        unfold dictGet? at *
        rw [List.find?_cons_of_neg _ (by simp; exact fun he => ht he.symm),
          List.find?_cons_of_neg _ (by simp [hak]; exact fun he => ht he.symm)]
        exact ih
      · rw [if_neg hak]
        by_cases hat : a.1 = t
        · unfold dictGet?
          rw [List.find?_cons_of_pos _ (by simpa using hat),
            List.find?_cons_of_pos _ (by simpa using hat)]
        · unfold dictGet? at *
          rw [List.find?_cons_of_neg _ (by simpa using hat),
            List.find?_cons_of_neg _ (by simpa using hat)]
          exact ih

theorem dictGet?_overwrite_self {α β : Type} [DecidableEq α]
    (m : List (α × β)) (k : α) (v : β)
    (h : m.any (fun p => p.1 = k) = true) :
    dictGet? (m.map (fun p => if p.1 = k then (k, v) else p)) k = some v := by
  induction m with
  | nil => cases h
  | cons a m ih =>
      rw [List.map_cons]
      by_cases hak : a.1 = k
      · rw [if_pos hak]
        unfold dictGet?
        rw [List.find?_cons_of_pos _ (by simp)]
        rfl
      · rw [if_neg hak]
        rw [List.any_cons] at h
        have h2 : decide (a.1 = k) = false := by simpa using hak
        rw [h2] at h
        simp only [Bool.false_or] at h
        unfold dictGet? at *
        rw [List.find?_cons_of_neg _ (by simpa using hak)]
        exact ih h

theorem dictGet?_insert {α β : Type} [DecidableEq α]
    (m : List (α × β)) (k t : α) (v : β) :
    dictGet? (dictInsert m k v) t = if t = k then some v else dictGet? m t := by
  rw [dictInsert]
  by_cases hany : m.any (fun p => p.1 = k) = true
  · rw [if_pos (by simpa using hany)]
    by_cases ht : t = k
    · subst ht
      rw [if_pos rfl]
      exact dictGet?_overwrite_self m t v hany
    · rw [if_neg ht]
      exact dictGet?_overwrite_ne m k t v ht
  · rw [if_neg (by simpa using hany)]
    rw [dictGet?_append]
    cases hmt : dictGet? m t with
    | some w =>
        have htk : t ≠ k := by
          intro he
          subst he
          have h1 : (dictGet? m t).isSome = true := by rw [hmt]; rfl
          rw [dictGet?_isSome_eq_any] at h1
          exact hany h1
        rw [if_neg htk]
    | none =>
        by_cases ht : t = k
        · subst ht
          rw [if_pos rfl]
          unfold dictGet?
          rw [List.find?_cons_of_pos _ (by simp)]
          rfl
        · rw [if_neg ht]
          unfold dictGet?
          rw [List.find?_cons_of_neg _ (by simp; exact fun he => ht he.symm)]
          rfl

theorem maxKey_append_single {β : Type} (m : List (Nat × β)) (k : Nat) (v : β) :
    maxKey (m ++ [(k, v)]) = max (maxKey m) k := by
  unfold maxKey
  rw [List.foldl_append]
  rfl

theorem dictInsert_length_ge {α β : Type} [DecidableEq α]
    (m : List (α × β)) (k : α) (v : β) :
    m.length ≤ (dictInsert m k v).length := by
  rw [dictInsert]
  by_cases h : m.any (fun p => p.1 = k) = true
  · rw [if_pos h, List.length_map]
  · rw [if_neg h, List.length_append]
    omega

theorem baseVocab_keys : baseVocab.map Prod.fst = List.range baseVocab.length := by
  unfold baseVocab
  rw [List.map_map, List.length_map, List.length_range]
  show List.map (fun i => i) (List.range 256) = List.range 256
  exact List.map_id' (List.range 256)

theorem addIfAbsent_keys (vi : List (Nat × Str) × List (Str × Nat)) (s : Str)
    (h : vi.1.map Prod.fst = List.range vi.1.length) :
    (addIfAbsent vi s).1.map Prod.fst = List.range (addIfAbsent vi s).1.length := by
  unfold addIfAbsent
  by_cases hs : (dictGet? vi.2 s).isSome = true
  · rw [if_pos hs]
    exact h
  · rw [if_neg hs]
    have hfresh : vi.1.any (fun p => p.1 = vi.1.length) = false := by
      rw [List.any_eq_false]
      intro e he
      simp only [decide_eq_true_eq]
      intro hc
      have hmem : e.1 ∈ vi.1.map Prod.fst := List.mem_map_of_mem _ he
      rw [h, hc] at hmem
      exact absurd (List.mem_range.mp hmem) (lt_irrefl _)
    show (dictInsert vi.1 vi.1.length s).map Prod.fst =
      List.range (dictInsert vi.1 vi.1.length s).length
    rw [dictInsert_fresh_eq_append _ _ _ hfresh, List.map_append, h,
      List.length_append]
    simp [List.range_succ]

theorem foldl_addIfAbsent_keys (specials : List Str) :
    ∀ vi : List (Nat × Str) × List (Str × Nat),
      vi.1.map Prod.fst = List.range vi.1.length →
      (specials.foldl addIfAbsent vi).1.map Prod.fst =
        List.range (specials.foldl addIfAbsent vi).1.length := by
  induction specials with
  | nil => intro vi h; exact h
  | cons s ss ih =>
      intro vi h
      rw [List.foldl_cons]
      exact ih _ (addIfAbsent_keys vi s h)

theorem trainInit_keys (specials : List Str) :
    (trainInit specials).1.map Prod.fst = List.range (trainInit specials).1.length := by
  unfold trainInit
  exact foldl_addIfAbsent_keys specials _ (addIfAbsent_keys _ _ baseVocab_keys)

theorem keysRange_len_le (m : List (Nat × Str))
    (h : m.map Prod.fst = List.range m.length) : m.length ≤ maxKey m + 1 := by
  cases hm : m.length with
  | zero => omega
  | succ n =>
      have hmem : n ∈ m.map Prod.fst := by
        rw [h, hm]
        exact List.mem_range.mpr (by omega)
      rcases List.mem_map.mp hmem with ⟨e, he, hen⟩
      have := le_maxKey m e he
      omega

theorem trainLoopC_merge_values_ge (fuel : Nat) :
    ∀ (vocab : List (Nat × Str)) (inv : List (Str × Nat)) (merges : Merges)
      (ids : List Nat) (ok : Bool) (bound : Nat),
      bound ≤ maxKey vocab + 1 →
      (∀ p m, dictGet? merges p = some m → bound ≤ m) →
      ∀ p m, dictGet? (trainLoopC fuel vocab inv merges ids ok).2.2.1 p = some m →
        bound ≤ m := by
  induction fuel with
  | zero =>
      intro vocab inv merges ids ok bound h1 h2
      exact h2
  | succ n ih =>
      intro vocab inv merges ids ok bound h1 h2
      rw [trainLoopC]
      cases hffp : find_freq_pair ids with
      | none =>
          simp only
          exact h2
      | some p =>
          simp only
          refine ih _ _ _ _ _ bound ?_ ?_
          · rw [dictInsert_fresh_eq_append _ _ _ (maxKey_fresh vocab),
              maxKey_append_single]
            have := Nat.le_max_right (maxKey vocab) (maxKey vocab + 1)
            omega
          · intro q m hq
            rw [dictGet?_insert] at hq
            by_cases hqp : q = p
            · rw [if_pos hqp] at hq
              have hm : maxKey vocab + 1 = m := Option.some.inj hq
              omega
            · rw [if_neg hqp] at hq
              exact h2 q m hq

theorem rangeInv_get (n : Nat) : ∀ (s : Str) (id : Nat),
    dictGet? ((List.range n).map (fun i => (([i] : Str), i))) s = some id →
      s = [id] ∧ id < n := by
  induction n with
  | zero =>
      intro s id h
      simp [dictGet?] at h
  | succ n ih =>
      intro s id h
      rw [List.range_succ, List.map_append, dictGet?_append] at h
      cases hfirst : dictGet? ((List.range n).map (fun i => (([i] : Str), i))) s with
      | some w =>
          rw [hfirst] at h
          have hw : w = id := Option.some.inj h
          subst hw
          obtain ⟨hs, hlt⟩ := ih s w hfirst
          exact ⟨hs, by omega⟩
      | none =>
          rw [hfirst] at h
          simp only [List.map_cons, List.map_nil] at h
          by_cases hs : s = [n]
          · subst hs
            unfold dictGet? at h
            rw [List.find?_cons_of_pos _ (by simp)] at h
            have : n = id := Option.some.inj h
            subst this
            exact ⟨rfl, by omega⟩
          · unfold dictGet? at h
            rw [List.find?_cons_of_neg _ (by simp; exact fun he => hs he.symm)] at h
            cases h

theorem baseInv_get (s : Str) (id : Nat) (h : dictGet? baseInv s = some id) :
    s = [id] ∧ id < 256 :=
  rangeInv_get 256 s id h

theorem addIfAbsent_inv_mono (vi : List (Nat × Str) × List (Str × Nat)) (t s : Str)
    (id : Nat) (h : dictGet? vi.2 s = some id) :
    dictGet? (addIfAbsent vi t).2 s = some id := by
  unfold addIfAbsent
  by_cases ht : (dictGet? vi.2 t).isSome = true
  · rw [if_pos ht]
    exact h
  · rw [if_neg ht]
    show dictGet? (dictInsert vi.2 t vi.1.length) s = some id
    rw [dictGet?_insert]
    have hst : s ≠ t := by
      intro he
      subst he
      rw [h] at ht
      exact ht rfl
    rw [if_neg hst]
    exact h

theorem foldl_addIfAbsent_inv_mono (specials : List Str) :
    ∀ (vi : List (Nat × Str) × List (Str × Nat)) (s : Str) (id : Nat),
      dictGet? vi.2 s = some id →
      dictGet? ((specials.foldl addIfAbsent vi).2) s = some id := by
  induction specials with
  | nil => intro vi s id h; exact h
  | cons t ss ih =>
      intro vi s id h
      rw [List.foldl_cons]
      exact ih _ s id (addIfAbsent_inv_mono vi t s id h)

theorem addIfAbsent_len_ge (vi : List (Nat × Str) × List (Str × Nat)) (t : Str) :
    vi.1.length ≤ (addIfAbsent vi t).1.length := by
  unfold addIfAbsent
  by_cases ht : (dictGet? vi.2 t).isSome = true
  · rw [if_pos ht]
  · rw [if_neg ht]
    exact dictInsert_length_ge _ _ _

theorem foldl_addIfAbsent_len_ge (specials : List Str) :
    ∀ vi : List (Nat × Str) × List (Str × Nat),
      vi.1.length ≤ (specials.foldl addIfAbsent vi).1.length := by
  induction specials with
  | nil => intro vi; exact le_refl _
  | cons t ss ih =>
      intro vi
      rw [List.foldl_cons]
      exact le_trans (addIfAbsent_len_ge vi t) (ih _)

theorem addIfAbsent_inv_bound (vi : List (Nat × Str) × List (Str × Nat)) (t : Str)
    (hkeys : vi.1.map Prod.fst = List.range vi.1.length)
    (hb : ∀ s id, dictGet? vi.2 s = some id → id < vi.1.length) :
    ∀ s id, dictGet? (addIfAbsent vi t).2 s = some id →
      id < (addIfAbsent vi t).1.length := by
  intro s id h
  unfold addIfAbsent at *
  by_cases ht : (dictGet? vi.2 t).isSome = true
  · rw [if_pos ht] at h ⊢
    exact hb s id h
  · rw [if_neg ht] at h ⊢
    have hfresh : vi.1.any (fun p => p.1 = vi.1.length) = false := by
      rw [List.any_eq_false]
      intro e he
      simp only [decide_eq_true_eq]
      intro hc
      have hmem : e.1 ∈ vi.1.map Prod.fst := List.mem_map_of_mem _ he
      rw [hkeys, hc] at hmem
      exact absurd (List.mem_range.mp hmem) (lt_irrefl _)
    have hlen : (dictInsert vi.1 vi.1.length t).length = vi.1.length + 1 := by
      rw [dictInsert_fresh_eq_append _ _ _ hfresh, List.length_append]
      rfl
    show id < (dictInsert vi.1 vi.1.length t).length
    rw [hlen]
    replace h : dictGet? (dictInsert vi.2 t vi.1.length) s = some id := h
    rw [dictGet?_insert] at h
    by_cases hst : s = t
    · rw [if_pos hst] at h
      have := Option.some.inj h
      omega
    · rw [if_neg hst] at h
      have := hb s id h
      omega

theorem foldl_addIfAbsent_covers (specials : List Str) :
    ∀ vi : List (Nat × Str) × List (Str × Nat),
      vi.1.map Prod.fst = List.range vi.1.length →
      (∀ s id, dictGet? vi.2 s = some id → id < vi.1.length) →
      ∀ s ∈ specials, ∃ id : Nat,
        dictGet? ((specials.foldl addIfAbsent vi).2) s = some id ∧
          id < (specials.foldl addIfAbsent vi).1.length := by
  induction specials with
  | nil =>
      intro vi _ _ s hs
      cases hs
  | cons t ss ih =>
      intro vi hkeys hb s hs
      rw [List.foldl_cons]
      rcases List.mem_cons.mp hs with h | h
      · subst h
        -- the head special has an entry right after its own step
        have hafter : ∃ id : Nat, dictGet? (addIfAbsent vi s).2 s = some id ∧
            id < (addIfAbsent vi s).1.length := by
          unfold addIfAbsent
          by_cases hsome : (dictGet? vi.2 s).isSome = true
          · rw [if_pos hsome]
            cases hid : dictGet? vi.2 s with
            | some id => exact ⟨id, rfl, hb s id hid⟩
            | none => rw [hid] at hsome; cases hsome
          · rw [if_neg hsome]
            refine ⟨vi.1.length, ?_, ?_⟩
            · show dictGet? (dictInsert vi.2 s vi.1.length) s = some vi.1.length
              rw [dictGet?_insert, if_pos rfl]
            · show vi.1.length < (dictInsert vi.1 vi.1.length s).length
              have hfresh : vi.1.any (fun p => p.1 = vi.1.length) = false := by
                rw [List.any_eq_false]
                intro e he
                simp only [decide_eq_true_eq]
                intro hc
                have hmem : e.1 ∈ vi.1.map Prod.fst := List.mem_map_of_mem _ he
                rw [hkeys, hc] at hmem
                exact absurd (List.mem_range.mp hmem) (lt_irrefl _)
              rw [dictInsert_fresh_eq_append _ _ _ hfresh, List.length_append]
              simp
        obtain ⟨id, hid, hlt⟩ := hafter
        refine ⟨id, foldl_addIfAbsent_inv_mono ss _ s id hid, ?_⟩
        exact lt_of_lt_of_le hlt (foldl_addIfAbsent_len_ge ss _)
      · exact ih (addIfAbsent vi t) (addIfAbsent_keys vi t hkeys)
          (addIfAbsent_inv_bound vi t hkeys hb) s h

theorem dictInsert_length_le {α β : Type} [DecidableEq α]
    (m : List (α × β)) (k : α) (v : β) :
    (dictInsert m k v).length ≤ m.length + 1 := by
  rw [dictInsert]
  by_cases h : m.any (fun p => p.1 = k) = true
  · rw [if_pos h, List.length_map]
    omega
  · rw [if_neg h, List.length_append]
    simp

theorem trainLoopC_merges_le (fuel : Nat) :
    ∀ (vocab : List (Nat × Str)) (inv : List (Str × Nat)) (merges : Merges)
      (ids : List Nat) (ok : Bool),
      (trainLoopC fuel vocab inv merges ids ok).2.2.1.length ≤ merges.length + fuel := by
  induction fuel with
  | zero =>
      intro vocab inv merges ids ok
      simp [trainLoopC]
  | succ n ih =>
      intro vocab inv merges ids ok
      rw [trainLoopC]
      cases hffp : find_freq_pair ids with
      | none =>
          simp only
          omega
      | some p =>
          simp only
          have h1 := ih (dictInsert vocab (maxKey vocab + 1)
              ((dictGet? vocab p.1).getD [] ++ (dictGet? vocab p.2).getD []))
            (dictInsert inv
              ((dictGet? vocab p.1).getD [] ++ (dictGet? vocab p.2).getD [])
              (maxKey vocab + 1))
            (dictInsert merges p (maxKey vocab + 1))
            (replace_pair ids p (maxKey vocab + 1))
            (ok && !(dictGet? inv
              ((dictGet? vocab p.1).getD [] ++ (dictGet? vocab p.2).getD [])).isSome)
          have h2 := dictInsert_length_le merges p (maxKey vocab + 1)
          omega

theorem trainLoopC_stop (fuel : Nat) (vocab : List (Nat × Str))
    (inv : List (Str × Nat)) (merges : Merges) (ids : List Nat) (ok : Bool)
    (h : find_freq_pair ids = none) :
    (trainLoopC fuel vocab inv merges ids ok).2.2.1 = merges := by
  cases fuel with
  | zero => rfl
  | succ n =>
      rw [trainLoopC, h]

/-- C7: in train, special tokens are inserted after the base alphabet and
the boundary marker but before the merge loop begins: every requested
special token is mapped to an id inside the contiguous initial range, that
is, below the initial vocabulary length, while every id recorded in the
merge table by training a fresh tokenizer is at least that initial length,
so special ids never collide with merge-created ids (for every corpus,
target size and special-token set). -/
theorem train_specials_contiguous (text : Str) (vocabSize : Nat) (specials : List Str) :
    (∀ s ∈ specials, ∃ id : Nat,
        dictGet? (trainInit specials).2 s = some id ∧
          id < (trainInit specials).1.length) ∧
    (∀ p m,
        dictGet? (train initTokenizer text vocabSize specials).bpe_merges p = some m →
        (trainInit specials).1.length ≤ m) := by
  constructor
  · unfold trainInit
    apply foldl_addIfAbsent_covers
    · exact addIfAbsent_keys _ _ baseVocab_keys
    · apply addIfAbsent_inv_bound
      · exact baseVocab_keys
      · intro s id h
        obtain ⟨_, hlt⟩ := baseInv_get s id h
        have hlen : baseVocab.length = 256 := by
          unfold baseVocab
          rw [List.length_map, List.length_range]
        show id < baseVocab.length
        omega
  · intro p m hm
    rw [train_eq_C] at hm
    unfold trainC trainFullC at hm
    simp only at hm
    refine trainLoopC_merge_values_ge _ _ _ _ _ _
      ((trainInit specials).1.length) ?_ ?_ p m hm
    · exact keysRange_len_le _ (trainInit_keys specials)
    · intro q w hw
      simp [initTokenizer, dictGet?] at hw

set_option maxRecDepth 40000 in
/-- C7 witness: with the single special token of code point 999, corpus
"abab" and target size 259, the special receives id 257 inside the initial
range of length 258, and the one recorded merge id 258 is at least 258. -/
theorem train_specials_contiguous_witness :
    (∃ id : Nat, dictGet? (trainInit [[999]]).2 [999] = some id ∧
        id < (trainInit [[999]]).1.length) ∧
      (trainInit [[999]]).1.length ≤ 258 :=
  ⟨(train_specials_contiguous [97, 98, 97, 98] 259 [[999]]).1 [999] (by decide),
    (train_specials_contiguous [97, 98, 97, 98] 259 [[999]]).2 (97, 98) 258
      (by rw [train_eq_C]; decide)⟩

/-- C9: training always terminates; the merge while-loop coincides with a
loop on fuel vocab_size minus the current vocabulary length (each
iteration adds exactly one vocabulary entry), so it executes at most
target minus initial vocabulary size iterations; the merge table of a
freshly trained tokenizer gains at most that many entries; and when
find_freq_pair returns None on the initial working ids the loop stops at
once, recording no merges. -/
theorem train_terminates_bound (text : Str) (vocabSize : Nat) (specials : List Str) :
    (∀ (vocab : List (Nat × Str)) (inv : List (Str × Nat)) (merges : Merges)
        (ids : List Nat) (ok : Bool),
        trainLoop vocabSize vocab inv merges ids ok =
          trainLoopC (vocabSize - vocab.length) vocab inv merges ids ok) ∧
    (train initTokenizer text vocabSize specials).bpe_merges.length ≤
      vocabSize - (trainInit specials).1.length ∧
    (find_freq_pair (trainInitIds text specials) = none →
      (train initTokenizer text vocabSize specials).bpe_merges = []) := by
  refine ⟨fun vocab inv merges ids ok =>
    trainLoop_eq_C vocabSize _ vocab inv merges ids ok rfl, ?_, ?_⟩
  · rw [train_eq_C]
    unfold trainC trainFullC
    simp only
    have h := trainLoopC_merges_le (vocabSize - (trainInit specials).1.length)
      (trainInit specials).1 (trainInit specials).2 initTokenizer.bpe_merges
      (trainInitIds text specials) true
    simpa [initTokenizer] using h
  · intro h
    rw [train_eq_C]
    unfold trainC trainFullC
    simp only
    rw [trainLoopC_stop _ _ _ _ _ _ h]
    rfl

set_option maxRecDepth 40000 in
/-- C9 witness: on the one-letter corpus "a" with target size 300 and no
specials, find_freq_pair of the initial ids is None, and the theorem
yields an empty merge table. -/
theorem train_terminates_bound_witness :
    find_freq_pair (trainInitIds [97] []) = none ∧
      (train initTokenizer [97] 300 []).bpe_merges = [] :=
  ⟨by decide, (train_terminates_bound [97] 300 []).2.2 (by decide)⟩

theorem trainLoopC_merges_keys (fuel : Nat) :
    ∀ (vocab : List (Nat × Str)) (inv : List (Str × Nat)) (merges : Merges)
      (ids : List Nat) (ok : Bool) (p : Nat × Nat),
      (dictGet? merges p).isSome = true →
      (dictGet? (trainLoopC fuel vocab inv merges ids ok).2.2.1 p).isSome = true := by
  induction fuel with
  | zero =>
      intro vocab inv merges ids ok p h
      exact h
  | succ n ih =>
      intro vocab inv merges ids ok p h
      rw [trainLoopC]
      cases hffp : find_freq_pair ids with
      | none =>
          simp only
          exact h
      | some q =>
          simp only
          refine ih _ _ _ _ _ p ?_
          rw [dictGet?_insert]
          by_cases hpq : p = q
          · rw [if_pos hpq]
            rfl
          · rw [if_neg hpq]
            exact h

set_option maxRecDepth 40000 in
/-- C10 counterexample: training a fresh tokenizer on "abab" to size 258
records the merge rule (97,98) mapped to 257; a second train call on the
same instance, now with one extra special token and size 259, reassigns
the same pair key to the new id 258, so the earlier rule (97,98) mapped
to 257 is no longer present in the merge table. -/
theorem train_merge_overwrite_cex :
    dictGet? (train initTokenizer [97, 98, 97, 98] 258 []).bpe_merges (97, 98) =
        some 257 ∧
      dictGet? (train (train initTokenizer [97, 98, 97, 98] 258 [])
        [97, 98, 97, 98] 259 [[999]]).bpe_merges (97, 98) = some 258 := by
  constructor
  · rw [train_eq_C]
    decide
  · simp only [train_eq_C]
    decide

/-- C10 (amended): a second call to train rebuilds vocab and inverse_vocab
from the base alphabet but never clears bpe_merges: every pair key present
in the merge table before any train call is still a key of the merge table
afterwards; however the id a key maps to may be overwritten by the later
call, so the full rule recorded earlier need not survive. -/
theorem train_preserves_merge_keys (tok : Tokenizer) (text : Str) (vocabSize : Nat)
    (specials : List Str) (p : Nat × Nat)
    (h : (dictGet? tok.bpe_merges p).isSome = true) :
    (dictGet? (train tok text vocabSize specials).bpe_merges p).isSome = true := by
  rw [train_eq_C]
  unfold trainC trainFullC
  simp only
  exact trainLoopC_merges_keys _ _ _ _ _ _ p h

/-- C10 witness: a tokenizer whose merge table holds (1,2) mapped to 5
still has the key (1,2) after training on the empty corpus. -/
theorem train_preserves_merge_keys_witness :
    (dictGet? (Tokenizer.mk [] [] [((1, 2), 5)]).bpe_merges (1, 2)).isSome = true ∧
      (dictGet? (train (Tokenizer.mk [] [] [((1, 2), 5)]) [] 0 []).bpe_merges
        (1, 2)).isSome = true :=
  ⟨by decide, train_preserves_merge_keys (Tokenizer.mk [] [] [((1, 2), 5)]) [] 0 []
    (1, 2) (by decide)⟩

theorem rangeVocab_get (n : Nat) : ∀ (k : Nat) (s : Str),
    dictGet? ((List.range n).map (fun i => (i, ([i] : Str)))) k = some s →
      s = [k] ∧ k < n := by
  induction n with
  | zero =>
      intro k s h
      simp [dictGet?] at h
  | succ n ih =>
      intro k s h
      rw [List.range_succ, List.map_append, dictGet?_append] at h
      cases hfirst : dictGet? ((List.range n).map (fun i => (i, ([i] : Str)))) k with
      | some w =>
          rw [hfirst] at h
          have hw : w = s := Option.some.inj h
          subst hw
          obtain ⟨hs, hlt⟩ := ih k w hfirst
          exact ⟨hs, by omega⟩
      | none =>
          rw [hfirst] at h
          simp only [List.map_cons, List.map_nil] at h
          by_cases hk : k = n
          · subst hk
            unfold dictGet? at h
            rw [List.find?_cons_of_pos _ (by simp)] at h
            have : [k] = s := Option.some.inj h
            subst this
            exact ⟨rfl, by omega⟩
          · unfold dictGet? at h
            rw [List.find?_cons_of_neg _ (by simp; exact fun he => hk he.symm)] at h
            cases h

theorem rangeVocab_lookup (n : Nat) : ∀ k : Nat, k < n →
    dictGet? ((List.range n).map (fun i => (i, ([i] : Str)))) k = some [k] := by
  induction n with
  | zero => intro k h; omega
  | succ n ih =>
      intro k h
      rw [List.range_succ, List.map_append, dictGet?_append]
      cases hfirst : dictGet? ((List.range n).map (fun i => (i, ([i] : Str)))) k with
      | some w =>
          obtain ⟨hs, _⟩ := rangeVocab_get n k w hfirst
          rw [hs]
      | none =>
          have hk : k = n := by
            by_contra hne
            have hlt : k < n := by omega
            rw [ih k hlt] at hfirst
            cases hfirst
          subst hk
          simp only [List.map_cons, List.map_nil]
          unfold dictGet?
          rw [List.find?_cons_of_pos _ (by simp)]
          rfl

theorem rangeInv_lookup (n : Nat) : ∀ i : Nat, i < n →
    dictGet? ((List.range n).map (fun i => (([i] : Str), i))) [i] = some i := by
  induction n with
  | zero => intro i h; omega
  | succ n ih =>
      intro i h
      rw [List.range_succ, List.map_append, dictGet?_append]
      cases hfirst : dictGet? ((List.range n).map (fun i => (([i] : Str), i))) [i] with
      | some w =>
          obtain ⟨hs, _⟩ := rangeInv_get n [i] w hfirst
          have : i = w := by
            have := congrArg (fun l => List.headD l 0) hs
            simpa using this
          rw [this]
      | none =>
          have hk : i = n := by
            by_contra hne
            have hlt : i < n := by omega
            rw [ih i hlt] at hfirst
            cases hfirst
          subst hk
          simp only [List.map_cons, List.map_nil]
          unfold dictGet?
          rw [List.find?_cons_of_pos _ (by simp)]
          rfl

theorem maxKey_le {β : Type} (m : List (Nat × β)) (b : Nat)
    (h : ∀ e ∈ m, e.1 ≤ b) : maxKey m ≤ b := by
  unfold maxKey
  suffices haux : ∀ a : Nat, a ≤ b → m.foldl (fun x q => max x q.1) a ≤ b by
    exact haux 0 (Nat.zero_le b)
  induction m with
  | nil => intro a ha; exact ha
  | cons x xs ih =>
      intro a ha
      rw [List.foldl_cons]
      refine ih (fun e he => h e (List.mem_cons_of_mem x he)) (max a x.1) ?_
      have hx := h x (List.mem_cons_self x xs)
      exact max_le ha hx

theorem keysRange_maxKey (m : List (Nat × Str))
    (h : m.map Prod.fst = List.range m.length) (hpos : 0 < m.length) :
    maxKey m + 1 = m.length := by
  have hub : maxKey m ≤ m.length - 1 := by
    refine maxKey_le m (m.length - 1) ?_
    intro e he
    have hmem : e.1 ∈ m.map Prod.fst := List.mem_map_of_mem _ he
    rw [h] at hmem
    have := List.mem_range.mp hmem
    omega
  have hlb := keysRange_len_le m h
  omega

theorem bij_extend (vocab : List (Nat × Str)) (inv : List (Str × Nat))
    (k : Nat) (s : Str)
    (hlen : vocab.length = inv.length)
    (hvc : ∀ i t, dictGet? vocab i = some t → dictGet? inv t = some i)
    (hiv : ∀ t i, dictGet? inv t = some i → dictGet? vocab i = some t)
    (hkfresh : (dictGet? vocab k).isSome = false)
    (hsfresh : (dictGet? inv s).isSome = false) :
    (vocab ++ [(k, s)]).length = (inv ++ [(s, k)]).length ∧
      (∀ i t, dictGet? (vocab ++ [(k, s)]) i = some t →
        dictGet? (inv ++ [(s, k)]) t = some i) ∧
      (∀ t i, dictGet? (inv ++ [(s, k)]) t = some i →
        dictGet? (vocab ++ [(k, s)]) i = some t) := by
  refine ⟨by rw [List.length_append, List.length_append, hlen]; rfl, ?_, ?_⟩
  · intro i t h
    rw [dictGet?_append] at h
    rw [dictGet?_append]
    cases hfirst : dictGet? vocab i with
    | some w =>
        rw [hfirst] at h
        have hw : w = t := Option.some.inj h
        subst hw
        have hinv := hvc i w hfirst
        rw [hinv]
    | none =>
        rw [hfirst] at h
        by_cases hik : i = k
        · subst hik
          unfold dictGet? at h
          rw [List.find?_cons_of_pos _ (by simp)] at h
          have hts : s = t := Option.some.inj h
          subst hts
          have hnone : dictGet? inv s = none := by
            cases hg : dictGet? inv s with
            | none => rfl
            | some w => rw [hg] at hsfresh; cases hsfresh
          rw [hnone]
          unfold dictGet?
          rw [List.find?_cons_of_pos _ (by simp)]
          rfl
        · unfold dictGet? at h
          rw [List.find?_cons_of_neg _ (by simp; exact fun he => hik he.symm)] at h
          cases h
  · intro t i h
    rw [dictGet?_append] at h
    rw [dictGet?_append]
    cases hfirst : dictGet? inv t with
    | some w =>
        rw [hfirst] at h
        have hw : w = i := Option.some.inj h
        subst hw
        have hvoc := hiv t w hfirst
        rw [hvoc]
    | none =>
        rw [hfirst] at h
        by_cases hts : t = s
        · subst hts
          unfold dictGet? at h
          rw [List.find?_cons_of_pos _ (by simp)] at h
          have hik : k = i := Option.some.inj h
          subst hik
          have hnone : dictGet? vocab k = none := by
            cases hg : dictGet? vocab k with
            | none => rfl
            | some w => rw [hg] at hkfresh; cases hkfresh
          rw [hnone]
          unfold dictGet?
          rw [List.find?_cons_of_pos _ (by simp)]
          rfl
        · unfold dictGet? at h
          rw [List.find?_cons_of_neg _ (by simp; exact fun he => hts he.symm)] at h
          cases h

theorem base_bij :
    baseVocab.length = baseInv.length ∧
      (∀ i s, dictGet? baseVocab i = some s → dictGet? baseInv s = some i) ∧
      (∀ s i, dictGet? baseInv s = some i → dictGet? baseVocab i = some s) := by
  refine ⟨?_, ?_, ?_⟩
  · unfold baseVocab baseInv
    rw [List.length_map, List.length_map]
  · intro i s h
    unfold baseVocab at h
    obtain ⟨hs, hlt⟩ := rangeVocab_get 256 i s h
    subst hs
    unfold baseInv
    exact rangeInv_lookup 256 i hlt
  · intro s i h
    unfold baseInv at h
    obtain ⟨hs, hlt⟩ := rangeInv_get 256 s i h
    subst hs
    unfold baseVocab
    exact rangeVocab_lookup 256 i hlt

theorem addIfAbsent_bij (vi : List (Nat × Str) × List (Str × Nat)) (s : Str)
    (hkeys : vi.1.map Prod.fst = List.range vi.1.length)
    (hlen : vi.1.length = vi.2.length)
    (hvc : ∀ i t, dictGet? vi.1 i = some t → dictGet? vi.2 t = some i)
    (hiv : ∀ t i, dictGet? vi.2 t = some i → dictGet? vi.1 i = some t) :
    (addIfAbsent vi s).1.length = (addIfAbsent vi s).2.length ∧
      (∀ i t, dictGet? (addIfAbsent vi s).1 i = some t →
        dictGet? (addIfAbsent vi s).2 t = some i) ∧
      (∀ t i, dictGet? (addIfAbsent vi s).2 t = some i →
        dictGet? (addIfAbsent vi s).1 i = some t) := by
  unfold addIfAbsent
  by_cases hs : (dictGet? vi.2 s).isSome = true
  · rw [if_pos hs]
    exact ⟨hlen, hvc, hiv⟩
  · rw [if_neg hs]
    have hsfresh : (dictGet? vi.2 s).isSome = false := by
      cases hg : (dictGet? vi.2 s).isSome with
      | false => rfl
      | true => exact absurd hg hs
    have hanyfresh : vi.1.any (fun p => p.1 = vi.1.length) = false := by
      rw [List.any_eq_false]
      intro e he
      simp only [decide_eq_true_eq]
      intro hc
      have hmem : e.1 ∈ vi.1.map Prod.fst := List.mem_map_of_mem _ he
      rw [hkeys, hc] at hmem
      exact absurd (List.mem_range.mp hmem) (lt_irrefl _)
    have hkfresh : (dictGet? vi.1 vi.1.length).isSome = false := by
      rw [dictGet?_isSome_eq_any]
      exact hanyfresh
    have hinvany : vi.2.any (fun p => p.1 = s) = false := by
      rw [← dictGet?_isSome_eq_any]
      exact hsfresh
    show (dictInsert vi.1 vi.1.length s).length = (dictInsert vi.2 s vi.1.length).length ∧ _
    rw [dictInsert_fresh_eq_append _ _ _ hanyfresh,
      dictInsert_fresh_eq_append _ _ _ hinvany]
    exact bij_extend vi.1 vi.2 vi.1.length s hlen hvc hiv hkfresh hsfresh

theorem foldl_addIfAbsent_bij (specials : List Str) :
    ∀ vi : List (Nat × Str) × List (Str × Nat),
      vi.1.map Prod.fst = List.range vi.1.length →
      vi.1.length = vi.2.length →
      (∀ i t, dictGet? vi.1 i = some t → dictGet? vi.2 t = some i) →
      (∀ t i, dictGet? vi.2 t = some i → dictGet? vi.1 i = some t) →
      (specials.foldl addIfAbsent vi).1.length =
          (specials.foldl addIfAbsent vi).2.length ∧
        (∀ i t, dictGet? (specials.foldl addIfAbsent vi).1 i = some t →
          dictGet? (specials.foldl addIfAbsent vi).2 t = some i) ∧
        (∀ t i, dictGet? (specials.foldl addIfAbsent vi).2 t = some i →
          dictGet? (specials.foldl addIfAbsent vi).1 i = some t) := by
  induction specials with
  | nil => intro vi _ h1 h2 h3; exact ⟨h1, h2, h3⟩
  | cons s ss ih =>
      intro vi hkeys h1 h2 h3
      rw [List.foldl_cons]
      obtain ⟨g1, g2, g3⟩ := addIfAbsent_bij vi s hkeys h1 h2 h3
      exact ih _ (addIfAbsent_keys vi s hkeys) g1 g2 g3

theorem trainInit_bij (specials : List Str) :
    (trainInit specials).1.length = (trainInit specials).2.length ∧
      (∀ i t, dictGet? (trainInit specials).1 i = some t →
        dictGet? (trainInit specials).2 t = some i) ∧
      (∀ t i, dictGet? (trainInit specials).2 t = some i →
        dictGet? (trainInit specials).1 i = some t) := by
  unfold trainInit
  obtain ⟨b1, b2, b3⟩ := base_bij
  obtain ⟨g1, g2, g3⟩ := addIfAbsent_bij (baseVocab, baseInv) [gMark] baseVocab_keys b1 b2 b3
  exact foldl_addIfAbsent_bij specials _ (addIfAbsent_keys _ _ baseVocab_keys) g1 g2 g3

theorem trainInit_len_pos (specials : List Str) : 0 < (trainInit specials).1.length := by
  have h1 : (256 : Nat) ≤ (addIfAbsent (baseVocab, baseInv) [gMark]).1.length := by
    have hmono : baseVocab.length ≤ (addIfAbsent (baseVocab, baseInv) [gMark]).1.length :=
      addIfAbsent_len_ge (baseVocab, baseInv) [gMark]
    have hb : baseVocab.length = 256 := by
      unfold baseVocab
      rw [List.length_map, List.length_range]
    omega
  have h2 := foldl_addIfAbsent_len_ge specials (addIfAbsent (baseVocab, baseInv) [gMark])
  unfold trainInit
  omega

theorem trainLoopC_flag_mono (fuel : Nat) :
    ∀ (vocab : List (Nat × Str)) (inv : List (Str × Nat)) (merges : Merges)
      (ids : List Nat) (ok : Bool),
      (trainLoopC fuel vocab inv merges ids ok).2.2.2 = true → ok = true := by
  induction fuel with
  | zero => intro vocab inv merges ids ok h; exact h
  | succ n ih =>
      intro vocab inv merges ids ok h
      rw [trainLoopC] at h
      cases hffp : find_freq_pair ids with
      | none =>
          rw [hffp] at h
          exact h
      | some p =>
          rw [hffp] at h
          simp only at h
          have := ih _ _ _ _ _ h
          exact (Bool.and_eq_true _ _).mp this |>.1

theorem trainLoopC_bij (fuel : Nat) :
    ∀ (vocab : List (Nat × Str)) (inv : List (Str × Nat)) (merges : Merges)
      (ids : List Nat) (ok : Bool),
      (trainLoopC fuel vocab inv merges ids ok).2.2.2 = true →
      vocab.map Prod.fst = List.range vocab.length →
      0 < vocab.length →
      vocab.length = inv.length →
      (∀ i t, dictGet? vocab i = some t → dictGet? inv t = some i) →
      (∀ t i, dictGet? inv t = some i → dictGet? vocab i = some t) →
      (trainLoopC fuel vocab inv merges ids ok).1.length =
          (trainLoopC fuel vocab inv merges ids ok).2.1.length ∧
        (∀ i t, dictGet? (trainLoopC fuel vocab inv merges ids ok).1 i = some t →
          dictGet? (trainLoopC fuel vocab inv merges ids ok).2.1 t = some i) ∧
        (∀ t i, dictGet? (trainLoopC fuel vocab inv merges ids ok).2.1 t = some i →
          dictGet? (trainLoopC fuel vocab inv merges ids ok).1 i = some t) := by
  induction fuel with
  | zero =>
      intro vocab inv merges ids ok _ _ _ h1 h2 h3
      exact ⟨h1, h2, h3⟩
  | succ n ih =>
      intro vocab inv merges ids ok hflag hkeys hpos h1 h2 h3
      rw [trainLoopC] at hflag ⊢
      cases hffp : find_freq_pair ids with
      | none =>
          exact ⟨h1, h2, h3⟩
      | some p =>
          simp only [hffp] at hflag ⊢
          -- extract collision freedom of this step from the final flag
          have hok' := trainLoopC_flag_mono n _ _ _ _ _ hflag
          have hsfresh : (dictGet? inv
              ((dictGet? vocab p.1).getD [] ++ (dictGet? vocab p.2).getD [])).isSome
                = false := by
            have := (Bool.and_eq_true _ _).mp hok' |>.2
            cases hg : (dictGet? inv
                ((dictGet? vocab p.1).getD [] ++ (dictGet? vocab p.2).getD [])).isSome with
            | false => rfl
            | true =>
                rw [hg] at this
                cases this
          have hkfresh : (dictGet? vocab (maxKey vocab + 1)).isSome = false := by
            rw [dictGet?_isSome_eq_any]
            exact maxKey_fresh vocab
          have hinvany : inv.any (fun q =>
              q.1 = (dictGet? vocab p.1).getD [] ++ (dictGet? vocab p.2).getD []) = false := by
            rw [← dictGet?_isSome_eq_any]
            exact hsfresh
          have happ1 : dictInsert vocab (maxKey vocab + 1)
              ((dictGet? vocab p.1).getD [] ++ (dictGet? vocab p.2).getD []) =
              vocab ++ [(maxKey vocab + 1,
                (dictGet? vocab p.1).getD [] ++ (dictGet? vocab p.2).getD [])] :=
            dictInsert_fresh_eq_append _ _ _ (maxKey_fresh vocab)
          have happ2 : dictInsert inv
              ((dictGet? vocab p.1).getD [] ++ (dictGet? vocab p.2).getD [])
              (maxKey vocab + 1) =
              inv ++ [((dictGet? vocab p.1).getD [] ++ (dictGet? vocab p.2).getD [],
                maxKey vocab + 1)] :=
            dictInsert_fresh_eq_append _ _ _ hinvany
          rw [happ1, happ2] at hflag ⊢
          have hmk := keysRange_maxKey vocab hkeys hpos
          obtain ⟨g1, g2, g3⟩ := bij_extend vocab inv (maxKey vocab + 1)
            ((dictGet? vocab p.1).getD [] ++ (dictGet? vocab p.2).getD [])
            h1 h2 h3 hkfresh hsfresh
          refine ih _ _ _ _ _ hflag ?_ ?_ g1 g2 g3
          · rw [List.map_append, hkeys, List.length_append]
            simp only [List.map_cons, List.map_nil, List.length_cons, List.length_nil]
            rw [hmk, List.range_succ]
          · rw [List.length_append]
            omega

set_option maxRecDepth 40000 in
/-- C3 counterexample: train a fresh tokenizer on "ababab" with target
size 259 and the special token "ab". The merge loop creates the merged
token "ab", whose string already belongs to the inverse vocabulary as the
special token, so the inverse entry is overwritten: afterwards vocab has
259 entries but inverse_vocab only 258, and the two ids 257 and 258 both
map to the string "ab" - the claimed bijection fails. -/
theorem train_bijection_cex :
    (train initTokenizer [97, 98, 97, 98, 97, 98] 259 [[97, 98]]).vocab.length = 259 ∧
      (train initTokenizer [97, 98, 97, 98, 97, 98] 259
        [[97, 98]]).inverse_vocab.length = 258 ∧
      dictGet? (train initTokenizer [97, 98, 97, 98, 97, 98] 259
        [[97, 98]]).vocab 257 = some [97, 98] ∧
      dictGet? (train initTokenizer [97, 98, 97, 98, 97, 98] 259
        [[97, 98]]).vocab 258 = some [97, 98] := by
  refine ⟨?_, ?_, ?_, ?_⟩ <;> (rw [train_eq_C]; decide)

/-- C3 (amended): after training a fresh tokenizer, provided no iteration
of the merge loop produced a merged token string that was already an
inverse-vocabulary key (the executable condition trainCollisionFree, which
can only fail when a special token or an earlier merged string collides
with a newly merged string), vocab and inverse_vocab have equal
cardinality and are exact inverses of one another: every vocab entry is
inverted by inverse_vocab and conversely. -/
theorem train_bijection_of_collision_free (text : Str) (vocabSize : Nat)
    (specials : List Str)
    (h : trainCollisionFree initTokenizer text vocabSize specials = true) :
    (train initTokenizer text vocabSize specials).vocab.length =
        (train initTokenizer text vocabSize specials).inverse_vocab.length ∧
      (∀ i s, dictGet? (train initTokenizer text vocabSize specials).vocab i = some s →
        dictGet? (train initTokenizer text vocabSize specials).inverse_vocab s = some i) ∧
      (∀ s i,
        dictGet? (train initTokenizer text vocabSize specials).inverse_vocab s = some i →
        dictGet? (train initTokenizer text vocabSize specials).vocab i = some s) := by
  rw [trainCollisionFree_eq_C] at h
  unfold trainCollisionFreeC trainFullC at h
  simp only at h
  rw [train_eq_C]
  unfold trainC trainFullC
  simp only
  obtain ⟨b1, b2, b3⟩ := trainInit_bij specials
  exact trainLoopC_bij _ _ _ _ _ _ h (trainInit_keys specials)
    (trainInit_len_pos specials) b1 b2 b3

set_option maxRecDepth 40000 in
/-- C3 witness: training on "abab" to size 258 with no specials is
collision-free, and the theorem yields equal cardinalities. -/
theorem train_bijection_witness :
    trainCollisionFree initTokenizer [97, 98, 97, 98] 258 [] = true ∧
      (train initTokenizer [97, 98, 97, 98] 258 []).vocab.length =
        (train initTokenizer [97, 98, 97, 98] 258 []).inverse_vocab.length :=
  ⟨by rw [trainCollisionFree_eq_C]; decide,
    (train_bijection_of_collision_free [97, 98, 97, 98] 258 []
      (by rw [trainCollisionFree_eq_C]; decide)).1⟩

set_option maxRecDepth 40000 in
theorem preprocessFrom_chars (s : Str) :
    ∀ (i : Nat) (c : Nat), c ∈ preprocessFrom i s →
      c = gMark ∨ (c ∈ s ∧ c ≠ spaceCp) := by
  induction s with
  | nil => intro i c h; cases h
  | cons d rest ih =>
      intro i c h
      rw [preprocessFrom] at h
      rcases List.mem_append.mp h with h1 | h1
      · rcases List.mem_append.mp h1 with h2 | h2
        · by_cases hd : d = spaceCp ∧ i ≠ 0
          · rw [if_pos hd] at h2
            exact Or.inl (List.mem_singleton.mp h2)
          · rw [if_neg hd] at h2
            cases h2
        · by_cases hd : d ≠ spaceCp
          · rw [if_pos hd] at h2
            have : c = d := List.mem_singleton.mp h2
            subst this
            exact Or.inr ⟨List.mem_cons_self c rest, hd⟩
          · rw [if_neg hd] at h2
            cases h2
      · rcases ih (i + 1) c h1 with h2 | h2
        · exact Or.inl h2
        · exact Or.inr ⟨List.mem_cons_of_mem d h2.1, h2.2⟩

theorem preprocess_chars (s : Str) (c : Nat) (h : c ∈ preprocess s) :
    c = gMark ∨ (c ∈ s ∧ c ≠ spaceCp) :=
  preprocessFrom_chars s 0 c h

theorem lookupChars_total (inv : List (Str × Nat)) :
    ∀ s : Str, (∀ c ∈ s, (dictGet? inv [c]).isSome = true) →
      ∃ ids : List Nat, lookupChars inv s = .ok ids := by
  intro s
  induction s with
  | nil => intro _; exact ⟨[], rfl⟩
  | cons c rest ih =>
      intro h
      rw [lookupChars]
      cases hc : dictGet? inv [c] with
      | none =>
          have := h c (List.mem_cons_self c rest)
          rw [hc] at this
          cases this
      | some id =>
          obtain ⟨tl, htl⟩ := ih (fun d hd => h d (List.mem_cons_of_mem c hd))
          rw [htl]
          exact ⟨id :: tl, rfl⟩

theorem findEarliest_mem (text : Str) (pos : Nat) (allowed : List Str) :
    ∀ sp : Str, (findEarliest text pos allowed).2 = some sp → sp ∈ allowed := by
  unfold findEarliest
  suffices haux : ∀ (l : List Str) (acc : Nat × Option Str),
      (∀ sp, acc.2 = some sp → sp ∈ allowed) → l ⊆ allowed →
      ∀ sp, (l.foldl (fun acc sp =>
        match strFind? text sp pos with
        | none => acc
        | some p => if p < acc.1 then (p, some sp) else acc) acc).2 = some sp →
        sp ∈ allowed by
    exact haux allowed (text.length, none) (fun sp h => by cases h)
      (List.Subset.refl allowed)
  intro l
  induction l with
  | nil => intro acc hacc _ sp h; exact hacc sp h
  | cons t rest ih =>
      intro acc hacc hsub sp h
      rw [List.foldl_cons] at h
      refine ih _ ?_ (fun x hx => hsub (List.mem_cons_of_mem t hx)) sp h
      intro sp2 h2
      cases hf : strFind? text t pos with
      | none =>
          rw [hf] at h2
          exact hacc sp2 h2
      | some p =>
          rw [hf] at h2
          simp only at h2
          by_cases hp : p < acc.1
          · rw [if_pos hp] at h2
            have : t = sp2 := Option.some.inj h2
            exact this ▸ hsub (List.mem_cons_self t rest)
          · rw [if_neg hp] at h2
            exact hacc sp2 h2

theorem segmentsGo_chars (text : Str) (allowed : List Str) :
    ∀ (fuel pos : Nat) (acc : List Str),
      (∀ s ∈ acc, s ∈ allowed ∨ ∀ c ∈ s, c ∈ text) →
      ∀ s ∈ segmentsGo text allowed fuel pos acc,
        s ∈ allowed ∨ ∀ c ∈ s, c ∈ text := by
  intro fuel
  induction fuel with
  | zero => intro pos acc hacc s hs; exact hacc s hs
  | succ n ih =>
      intro pos acc hacc s hs
      rw [segmentsGo] at hs
      by_cases hpos : pos < text.length
      · rw [if_pos hpos] at hs
        cases hfe : (findEarliest text pos allowed).2 with
        | some sp =>
            rw [hfe] at hs
            refine ih _ _ ?_ s hs
            intro s2 hs2
            rcases List.mem_append.mp hs2 with h1 | h1
            · rcases List.mem_append.mp h1 with h2 | h2
              · exact hacc s2 h2
              · by_cases hlt : pos < (findEarliest text pos allowed).1
                · rw [if_pos hlt] at h2
                  have hseq : s2 = (text.drop pos).take
                      ((findEarliest text pos allowed).1 - pos) :=
                    List.mem_singleton.mp h2
                  refine Or.inr ?_
                  intro c hc
                  rw [hseq] at hc
                  exact List.mem_of_mem_drop (List.mem_of_mem_take hc)
                · rw [if_neg hlt] at h2
                  cases h2
            · have : s2 = sp := List.mem_singleton.mp h1
              exact Or.inl (this ▸ findEarliest_mem text pos allowed sp hfe)
        | none =>
            rw [hfe] at hs
            rcases List.mem_append.mp hs with h1 | h1
            · exact hacc s h1
            · have : s = text.drop pos := List.mem_singleton.mp h1
              refine Or.inr ?_
              intro c hc
              rw [this] at hc
              exact List.mem_of_mem_drop hc
      · rw [if_neg hpos] at hs
        exact hacc s hs

theorem segmentsOf_chars (text : Str) (allowed : List Str) (s : Str)
    (hs : s ∈ segmentsOf text allowed) :
    s ∈ allowed ∨ ∀ c ∈ s, c ∈ text :=
  segmentsGo_chars text allowed (text.length + 1) 0 []
    (fun s2 hs2 => absurd hs2 (List.not_mem_nil s2)) s hs

theorem encodeSegments_disallowed (tok : Tokenizer) (allowed : List Str)
    (hallreg : ∀ sp ∈ allowed, (dictGet? tok.inverse_vocab sp).isSome = true) :
    ∀ segs : List Str,
      (∀ s ∈ segs, s ∈ allowed ∨
        ∀ c ∈ preprocess s, (dictGet? tok.inverse_vocab [c]).isSome = true) →
      (∃ s ∈ segs, s ∉ allowed ∧ ∃ t : Str,
        (dictGet? tok.inverse_vocab t).isSome = true ∧ isSpecialShaped t = true ∧
          containsSeq t s = true ∧ t ∉ allowed) →
      ∃ u : Str, encodeSegments tok allowed segs = .error (.disallowedSpecial u) := by
  intro segs
  induction segs with
  | nil =>
      intro _ hw
      obtain ⟨s, hs, _⟩ := hw
      cases hs
  | cons seg rest ih =>
      intro hsegs hw
      rw [encodeSegments]
      by_cases hmem : seg ∈ allowed
      · rw [if_pos hmem]
        have hwrest : ∃ s ∈ rest, s ∉ allowed ∧ ∃ t : Str,
            (dictGet? tok.inverse_vocab t).isSome = true ∧ isSpecialShaped t = true ∧
              containsSeq t s = true ∧ t ∉ allowed := by
          obtain ⟨s, hs, hsall, ht⟩ := hw
          rcases List.mem_cons.mp hs with h1 | h1
          · exact absurd (h1 ▸ hmem) hsall
          · exact ⟨s, h1, hsall, ht⟩
        obtain ⟨u, hu⟩ := ih (fun s h => hsegs s (List.mem_cons_of_mem seg h)) hwrest
        cases hid : dictGet? tok.inverse_vocab seg with
        | none =>
            have := hallreg seg hmem
            rw [hid] at this
            cases this
        | some id =>
            rw [hu]
            exact ⟨u, rfl⟩
      · rw [if_neg hmem]
        cases hfind : tok.inverse_vocab.find? (fun p =>
            isSpecialShaped p.1 && containsSeq p.1 seg && !(decide (p.1 ∈ allowed))) with
        | some p => exact ⟨p.1, rfl⟩
        | none =>
            have hwrest : ∃ s ∈ rest, s ∉ allowed ∧ ∃ t : Str,
                (dictGet? tok.inverse_vocab t).isSome = true ∧
                  isSpecialShaped t = true ∧ containsSeq t s = true ∧ t ∉ allowed := by
              obtain ⟨s, hs, hsall, t, htreg, htshape, htin, htall⟩ := hw
              rcases List.mem_cons.mp hs with h1 | h1
              · exfalso
                subst h1
                rw [dictGet?_isSome_eq_any] at htreg
                rcases List.any_eq_true.mp htreg with ⟨e, he, hdec⟩
                have he1 : e.1 = t := by simpa using hdec
                have := List.find?_eq_none.mp hfind e he
                rw [he1, htshape, htin] at this
                simp [htall] at this
              · exact ⟨s, h1, hsall, t, htreg, htshape, htin, htall⟩
            obtain ⟨u, hu⟩ := ih (fun s h => hsegs s (List.mem_cons_of_mem seg h)) hwrest
            have hmap : ∀ c ∈ preprocess seg,
                (dictGet? tok.inverse_vocab [c]).isSome = true := by
              rcases hsegs seg (List.mem_cons_self seg rest) with h1 | h1
              · exact absurd h1 hmem
              · exact h1
            obtain ⟨ids0, hids0⟩ := lookupChars_total tok.inverse_vocab (preprocess seg) hmap
            rw [hids0, hu]
            exact ⟨u, rfl⟩

theorem encodeWith_disallowed (tok : Tokenizer) (text : Str) (allowed : List Str)
    (seg t : Str) (id : Nat)
    (hv : ¬ tok.vocab.length = 0)
    (htxtall : text ∉ allowed)
    (hallreg : ∀ sp ∈ allowed, (dictGet? tok.inverse_vocab sp).isSome = true)
    (hchars : ∀ c ∈ text, c = spaceCp ∨ (dictGet? tok.inverse_vocab [c]).isSome = true)
    (hgm : (dictGet? tok.inverse_vocab [gMark]).isSome = true)
    (hseg : seg ∈ segmentsOf text allowed)
    (hsegord : seg ∉ allowed)
    (hreg : dictGet? tok.inverse_vocab t = some id)
    (hshape : isSpecialShaped t = true)
    (hin : containsSeq t seg = true)
    (htall : t ∉ allowed) :
    ∃ u : Str, encodeWith tok text allowed = .error (.disallowedSpecial u) := by
  have htext : ¬ text.length = 0 := by
    intro he
    have htnil : text = [] := List.eq_nil_of_length_eq_zero he
    subst htnil
    have : segmentsOf [] allowed = [] := rfl
    rw [this] at hseg
    cases hseg
  unfold encodeWith
  rw [if_neg hv, if_neg htext]
  have hval : allowed.find? (fun sp => !(dictGet? tok.inverse_vocab sp).isSome) = none := by
    rw [List.find?_eq_none]
    intro sp hsp
    simp [hallreg sp hsp]
  rw [hval]
  rw [if_neg (fun hc => htxtall hc.1)]
  refine encodeSegments_disallowed tok allowed hallreg (segmentsOf text allowed) ?_ ?_
  · intro s hs
    rcases segmentsOf_chars text allowed s hs with h1 | h1
    · exact Or.inl h1
    · refine Or.inr ?_
      intro c hc
      rcases preprocess_chars s c hc with h2 | h2
      · rw [h2]
        exact hgm
      · rcases hchars c (h1 c h2.1) with h3 | h3
        · exact absurd h3 h2.2
        · exact h3
  · refine ⟨seg, hseg, hsegord, t, ?_, hshape, hin, htall⟩
    rw [hreg]
    rfl

set_option maxRecDepth 40000 in
/-- C8 counterexample: register the special token "FOO" (no angle-bracket
shape) while training; "FOO" is a vocabulary-registered special-token
string and occurs literally in the encoded text, no allowed_specials are
passed, yet encode succeeds instead of failing: the guard only checks
tokens that start with the two characters less-than bar and end with bar
greater-than. -/
theorem encode_disallowed_cex :
    dictGet? (train initTokenizer [] 0 [[70, 79, 79]]).inverse_vocab [70, 79, 79] =
        some 257 ∧
      containsSeq [70, 79, 79] [70, 79, 79] = true ∧
      encode (train initTokenizer [] 0 [[70, 79, 79]]) [70, 79, 79] =
        .ok [70, 79, 79] := by
  refine ⟨?_, by decide, ?_⟩
  · rw [train_eq_C]
    decide
  · rw [train_eq_C]
    rfl

/-- Helper for the no-allowed_specials path: for every tokenizer with a
nonempty vocabulary, if some inverse-vocabulary token of the shape the
source checks for occurs literally in the text, encode without
allowed_specials fails with the disallowed-special-token error. -/
theorem encode_disallowed_none_path (tok : Tokenizer) (text t : Str) (id : Nat)
    (hv : ¬ tok.vocab.length = 0)
    (hreg : dictGet? tok.inverse_vocab t = some id)
    (hshape : isSpecialShaped t = true)
    (hin : containsSeq t text = true) :
    ∃ u : Str, encode tok text = .error (.disallowedSpecial u) := by
  have htne : t ≠ [] := by
    intro he
    subst he
    rw [isSpecialShaped] at hshape
    cases hshape
  have htext : ¬ text.length = 0 := by
    intro he
    have : text = [] := List.eq_nil_of_length_eq_zero he
    subst this
    rw [containsSeq] at hin
    cases ht : t with
    | nil => exact htne ht
    | cons c rest =>
        rw [ht] at hin
        rw [leadMatch] at hin
        cases hin
  unfold encode
  rw [if_neg hv, if_neg htext]
  unfold dictGet? at hreg
  cases hf : tok.inverse_vocab.find? (fun p => p.1 = t) with
  | none =>
      rw [hf] at hreg
      cases hreg
  | some e =>
      have hmem : e ∈ tok.inverse_vocab := List.mem_of_find?_eq_some hf
      have he1 : e.1 = t := by
        have := List.find?_some hf
        simpa using this
      have hex : ∃ x ∈ tok.inverse_vocab,
          (isSpecialShaped x.1 && containsSeq x.1 text) = true := by
        refine ⟨e, hmem, ?_⟩
        rw [he1, hshape, hin]
        rfl
      have hsome : (tok.inverse_vocab.find?
          (fun p => isSpecialShaped p.1 && containsSeq p.1 text)).isSome := by
        rw [List.find?_isSome]
        exact hex
      cases hfind : tok.inverse_vocab.find?
          (fun p => isSpecialShaped p.1 && containsSeq p.1 text) with
      | none =>
          rw [hfind] at hsome
          cases hsome
      | some u =>
          exact ⟨u.1, rfl⟩

/-- C8 (amended): restricted to tokens of the shape the source checks for
(starting with less-than bar and ending with bar greater-than), the
disallowed-special-token error is raised on both encode paths. Without
allowed_specials: if such a vocabulary-registered token occurs literally
in the text, encode fails with the disallowed-special error. With an
arbitrary allowed set: if every allowed special is vocabulary-registered
and nonempty (an empty allowed special makes the source segmentation loop
run forever), the whole text is not itself an allowed special, every text
character is a space or vocabulary-registered along with the boundary
marker (otherwise an unknown-special or unknown-character failure on an
earlier segment could preempt), and some ordinary segment of the
segmentation contains such a registered shaped token outside the allowed
set, then encode fails with the disallowed-special error. -/
theorem encode_disallowed_shaped :
    (∀ (tok : Tokenizer) (text t : Str) (id : Nat),
      ¬ tok.vocab.length = 0 →
      dictGet? tok.inverse_vocab t = some id →
      isSpecialShaped t = true →
      containsSeq t text = true →
      ∃ u : Str, encode tok text = .error (.disallowedSpecial u)) ∧
    (∀ (tok : Tokenizer) (text : Str) (allowed : List Str) (seg t : Str) (id : Nat),
      ¬ tok.vocab.length = 0 →
      (∀ sp ∈ allowed, sp ≠ []) →
      text ∉ allowed →
      (∀ sp ∈ allowed, (dictGet? tok.inverse_vocab sp).isSome = true) →
      (∀ c ∈ text, c = spaceCp ∨ (dictGet? tok.inverse_vocab [c]).isSome = true) →
      (dictGet? tok.inverse_vocab [gMark]).isSome = true →
      seg ∈ segmentsOf text allowed →
      seg ∉ allowed →
      dictGet? tok.inverse_vocab t = some id →
      isSpecialShaped t = true →
      containsSeq t seg = true →
      t ∉ allowed →
      ∃ u : Str, encodeWith tok text allowed = .error (.disallowedSpecial u)) :=
  ⟨fun tok text t id hv hreg hshape hin =>
      encode_disallowed_none_path tok text t id hv hreg hshape hin,
    fun tok text allowed seg t id hv _hne htxtall hallreg hchars hgm hseg hsegord
        hreg hshape hin htall =>
      encodeWith_disallowed tok text allowed seg t id hv htxtall hallreg hchars hgm
        hseg hsegord hreg hshape hin htall⟩

set_option maxRecDepth 40000 in
/-- C8 witness: first, a tokenizer trained with the shaped special token
less-than bar e bar greater-than; encoding that string without
allowed_specials fails with the disallowed-special error. Second, a
tokenizer trained with the shaped specials less-than bar e bar
greater-than and less-than bar p bar greater-than; encoding the text
made of the p-marker, the letter a and the e-marker with only the
p-marker allowed fails with the disallowed-special error, raised from the
ordinary segment holding the e-marker. -/
theorem encode_disallowed_shaped_witness :
    (∃ u : Str, encode (train initTokenizer [] 0 [[60, 124, 101, 124, 62]])
        [60, 124, 101, 124, 62] = .error (.disallowedSpecial u)) ∧
    (∃ u : Str, encodeWith
        (train initTokenizer [] 0 [[60, 124, 101, 124, 62], [60, 124, 112, 124, 62]])
        [60, 124, 112, 124, 62, 97, 60, 124, 101, 124, 62]
        [[60, 124, 112, 124, 62]] = .error (.disallowedSpecial u)) :=
  ⟨encode_disallowed_shaped.1 (train initTokenizer [] 0 [[60, 124, 101, 124, 62]])
      [60, 124, 101, 124, 62] [60, 124, 101, 124, 62] 257
      (by rw [train_eq_C]; decide) (by rw [train_eq_C]; decide) (by decide) (by decide),
    encode_disallowed_shaped.2
      (train initTokenizer [] 0 [[60, 124, 101, 124, 62], [60, 124, 112, 124, 62]])
      [60, 124, 112, 124, 62, 97, 60, 124, 101, 124, 62]
      [[60, 124, 112, 124, 62]]
      [97, 60, 124, 101, 124, 62] [60, 124, 101, 124, 62] 257
      (by rw [train_eq_C]; decide) (by decide) (by decide)
      (by rw [train_eq_C]; decide) (by rw [train_eq_C]; decide)
      (by rw [train_eq_C]; decide) (by decide) (by decide)
      (by rw [train_eq_C]; decide) (by decide) (by decide) (by decide)⟩

theorem dictGet?_append_left {α β : Type} [DecidableEq α]
    (m l : List (α × β)) (k : α) (v : β) (h : dictGet? m k = some v) :
    dictGet? (m ++ l) k = some v := by
  rw [dictGet?_append, h]

theorem find_freq_pair_mem (ids : List Nat) (p : Nat × Nat)
    (h : find_freq_pair ids = some p) : p.1 ∈ ids ∧ p.2 ∈ ids := by
  have hcnt := ((find_freq_pair_correct ids).2 p h).1
  have hmem : p ∈ pairsOf ids := by
    rw [← List.count_pos_iff]
    omega
  unfold pairsOf at hmem
  have h1 := List.of_mem_zip hmem
  exact ⟨h1.1, List.mem_of_mem_tail h1.2⟩

theorem replacePairSpec_mem (p : Nat × Nat) (n : Nat) :
    ∀ (ids : List Nat) (x : Nat), x ∈ replacePairSpec ids p n → x ∈ ids ∨ x = n
  | [], x, h => by cases h
  | [y], x, h => by
      rw [replacePairSpec] at h
      exact Or.inl h
  | y :: z :: rest, x, h => by
      rw [replacePairSpec] at h
      by_cases hyz : (y, z) = p
      · rw [if_pos hyz] at h
        rcases List.mem_cons.mp h with h1 | h1
        · exact Or.inr h1
        · rcases replacePairSpec_mem p n rest x h1 with h2 | h2
          · exact Or.inl (List.mem_cons_of_mem y (List.mem_cons_of_mem z h2))
          · exact Or.inr h2
      · rw [if_neg hyz] at h
        rcases List.mem_cons.mp h with h1 | h1
        · exact Or.inl (h1 ▸ List.mem_cons_self y (z :: rest))
        · rcases replacePairSpec_mem p n (z :: rest) x h1 with h2 | h2
          · exact Or.inl (List.mem_cons_of_mem y h2)
          · exact Or.inr h2

theorem replace_pair_mem (ids : List Nat) (p : Nat × Nat) (n : Nat) (x : Nat)
    (h : x ∈ replace_pair ids p n) : x ∈ ids ∨ x = n := by
  rw [replace_pair_eq_spec] at h
  exact replacePairSpec_mem p n ids x h

theorem addIfAbsent_vocab_mono (vi : List (Nat × Str) × List (Str × Nat)) (t : Str)
    (i : Nat) (w : Str)
    (hkeys : vi.1.map Prod.fst = List.range vi.1.length)
    (h : dictGet? vi.1 i = some w) :
    dictGet? (addIfAbsent vi t).1 i = some w := by
  unfold addIfAbsent
  by_cases ht : (dictGet? vi.2 t).isSome = true
  · rw [if_pos ht]
    exact h
  · rw [if_neg ht]
    show dictGet? (dictInsert vi.1 vi.1.length t) i = some w
    rw [dictGet?_insert]
    have hne : i ≠ vi.1.length := by
      intro he
      have hany : vi.1.any (fun p => p.1 = vi.1.length) = false := by
        rw [List.any_eq_false]
        intro e he2
        simp only [decide_eq_true_eq]
        intro hc
        have hmem : e.1 ∈ vi.1.map Prod.fst := List.mem_map_of_mem _ he2
        rw [hkeys, hc] at hmem
        exact absurd (List.mem_range.mp hmem) (lt_irrefl _)
      have hiso := dictGet?_isSome_eq_any vi.1 i
      rw [h, he, hany] at hiso
      simp at hiso
    rw [if_neg hne]
    exact h

theorem foldl_addIfAbsent_vocab_mono (specials : List Str) :
    ∀ (vi : List (Nat × Str) × List (Str × Nat)) (i : Nat) (w : Str),
      vi.1.map Prod.fst = List.range vi.1.length →
      dictGet? vi.1 i = some w →
      dictGet? ((specials.foldl addIfAbsent vi)).1 i = some w := by
  induction specials with
  | nil => intro vi i w _ h; exact h
  | cons t ss ih =>
      intro vi i w hkeys h
      rw [List.foldl_cons]
      exact ih _ i w (addIfAbsent_keys vi t hkeys) (addIfAbsent_vocab_mono vi t i w hkeys h)

theorem trainInit_vocab_zero (specials : List Str) :
    dictGet? (trainInit specials).1 0 = some [0] := by
  unfold trainInit
  refine foldl_addIfAbsent_vocab_mono specials _ 0 [0]
    (addIfAbsent_keys _ _ baseVocab_keys) ?_
  refine addIfAbsent_vocab_mono _ [gMark] 0 [0] baseVocab_keys ?_
  unfold baseVocab
  exact rangeVocab_lookup 256 0 (by omega)

theorem preprocess_ne_nil (text : Str) (hne : text ≠ [])
    (hhead : text.head? ≠ some spaceCp) : preprocess text ≠ [] := by
  rw [preprocess_eq_amended]
  cases text with
  | nil => exact absurd rfl hne
  | cons c rest =>
      rw [preprocessAmended]
      have hc : ¬ c = spaceCp := by
        intro he
        subst he
        exact hhead rfl
      rw [if_neg hc]
      simp

theorem replaceG_preprocess (text : Str) (hhead : text.head? ≠ some spaceCp)
    (hg : gMark ∉ text) : replaceG (preprocess text) = text := by
  rw [preprocess_eq_amended]
  have hmap : ∀ l : Str, gMark ∉ l →
      replaceG (l.map (fun d => if d = spaceCp then gMark else d)) = l := by
    intro l
    induction l with
    | nil => intro _; rfl
    | cons d rest ih =>
        intro hgl
        rw [List.map_cons]
        unfold replaceG at *
        rw [List.map_cons]
        have hrest := ih (fun hm => hgl (List.mem_cons_of_mem d hm))
        rw [hrest]
        by_cases hd : d = spaceCp
        · rw [if_pos hd]
          have : gMark ≠ spaceCp := by decide
          rw [if_pos rfl, hd]
        · rw [if_neg hd]
          have hdg : d ≠ gMark := fun he => hgl (he ▸ List.mem_cons_self d rest)
          rw [if_neg hdg]
  cases text with
  | nil => rfl
  | cons c rest =>
      rw [preprocessAmended]
      have hc : ¬ c = spaceCp := by
        intro he
        subst he
        exact hhead rfl
      rw [if_neg hc]
      have hcg : c ≠ gMark := fun he => hg (he ▸ List.mem_cons_self c rest)
      have hrest : gMark ∉ rest := fun hm => hg (List.mem_cons_of_mem c hm)
      show replaceG ([c] ++ rest.map (fun d => if d = spaceCp then gMark else d)) = c :: rest
      have happ : ∀ a b : Str, replaceG (a ++ b) = replaceG a ++ replaceG b := by
        intro a b
        unfold replaceG
        rw [List.map_append]
      rw [happ, hmap rest hrest]
      simp [replaceG, hcg]

theorem lookupChars_ok (inv : List (Str × Nat)) (vocab : List (Nat × Str))
    (hInvC : ∀ s id, dictGet? inv s = some id → dictGet? vocab id = some s) :
    ∀ (s : Str) (ids : List Nat), lookupChars inv s = .ok ids →
      (∀ x ∈ ids, (dictGet? vocab x).isSome = true) ∧
        (ids.map (fun x => (dictGet? vocab x).getD [])).flatten = s := by
  intro s
  induction s with
  | nil =>
      intro ids h
      rw [lookupChars] at h
      have : ids = [] := (Except.ok.inj h).symm
      subst this
      exact ⟨fun x hx => absurd hx (List.not_mem_nil x), rfl⟩
  | cons c rest ih =>
      intro ids h
      rw [lookupChars] at h
      cases hc : dictGet? inv [c] with
      | none =>
          rw [hc] at h
          cases h
      | some id =>
          rw [hc] at h
          cases hrest : lookupChars inv rest with
          | error e =>
              rw [hrest] at h
              cases h
          | ok tl =>
              rw [hrest] at h
              have hids : id :: tl = ids := Except.ok.inj h
              subst hids
              obtain ⟨g1, g2⟩ := ih tl hrest
              have hvc : dictGet? vocab id = some [c] := hInvC [c] id hc
              constructor
              · intro x hx
                rcases List.mem_cons.mp hx with h1 | h1
                · rw [h1, hvc]
                  rfl
                · exact g1 x h1
              · rw [List.map_cons, List.flatten_cons, g2, hvc]
                rfl

theorem applyMergesGo_spec (merges : Merges) (vocab : List (Nat × Str))
    (hMP : ∀ p m, dictGet? merges p = some m → ∃ sa sb,
      dictGet? vocab p.1 = some sa ∧ dictGet? vocab p.2 = some sb ∧
        dictGet? vocab m = some (sa ++ sb)) :
    ∀ (ids acc : List Nat),
      (∀ x ∈ ids, (dictGet? vocab x).isSome = true) →
      (∀ y ∈ applyMergesGo merges acc ids, y ∈ acc ∨
        (dictGet? vocab y).isSome = true) ∧
      ((applyMergesGo merges acc ids).map (fun x => (dictGet? vocab x).getD [])).flatten =
        ((acc ++ ids).map (fun x => (dictGet? vocab x).getD [])).flatten
  | [], acc, hin => by
      rw [applyMergesGo]
      exact ⟨fun y hy => Or.inl hy, by rw [List.append_nil]⟩
  | [x], acc, hin => by
      rw [applyMergesGo]
      constructor
      · intro y hy
        rcases List.mem_append.mp hy with h1 | h1
        · exact Or.inl h1
        · have : y = x := List.mem_singleton.mp h1
          exact Or.inr (this ▸ hin x (List.mem_singleton.mpr rfl))
      · rfl
  | x :: y :: rest, acc, hin => by
      rw [applyMergesGo]
      cases hm : dictGet? merges (x, y) with
      | some m =>
          obtain ⟨sa, sb, hsa, hsb, hsm⟩ := hMP (x, y) m hm
          have hrest : ∀ z ∈ rest, (dictGet? vocab z).isSome = true := fun z hz =>
            hin z (List.mem_cons_of_mem x (List.mem_cons_of_mem y hz))
          obtain ⟨g1, g2⟩ := applyMergesGo_spec merges vocab hMP rest (acc ++ [m]) hrest
          constructor
          · intro z hz
            rcases g1 z hz with h1 | h1
            · rcases List.mem_append.mp h1 with h2 | h2
              · exact Or.inl h2
              · have : z = m := List.mem_singleton.mp h2
                refine Or.inr ?_
                rw [this, hsm]
                rfl
            · exact Or.inr h1
          · rw [g2]
            rw [List.map_append, List.map_append, List.map_append,
              List.flatten_append, List.flatten_append]
            simp only [List.map_cons, List.map_nil, List.flatten_cons,
              List.flatten_nil, List.flatten_append]
            rw [hsm, hsa, hsb]
            simp only [Option.getD_some]
            rw [List.append_nil]
            simp [List.append_assoc]
      | none =>
          have hrest : ∀ z ∈ y :: rest, (dictGet? vocab z).isSome = true := fun z hz =>
            hin z (List.mem_cons_of_mem x hz)
          obtain ⟨g1, g2⟩ := applyMergesGo_spec merges vocab hMP (y :: rest) (acc ++ [x]) hrest
          constructor
          · intro z hz
            rcases g1 z hz with h1 | h1
            · rcases List.mem_append.mp h1 with h2 | h2
              · exact Or.inl h2
              · have : z = x := List.mem_singleton.mp h2
                exact Or.inr (this ▸ hin x (List.mem_cons_self x (y :: rest)))
            · exact Or.inr h1
          · rw [g2]
            rw [List.append_assoc]
            rfl

theorem apply_merges_spec (merges : Merges) (vocab : List (Nat × Str))
    (hMP : ∀ p m, dictGet? merges p = some m → ∃ sa sb,
      dictGet? vocab p.1 = some sa ∧ dictGet? vocab p.2 = some sb ∧
        dictGet? vocab m = some (sa ++ sb))
    (ids : List Nat) (hin : ∀ x ∈ ids, (dictGet? vocab x).isSome = true) :
    (∀ y ∈ apply_merges merges ids, (dictGet? vocab y).isSome = true) ∧
      ((apply_merges merges ids).map (fun x => (dictGet? vocab x).getD [])).flatten =
        (ids.map (fun x => (dictGet? vocab x).getD [])).flatten := by
  rw [apply_merges]
  by_cases hlen : ids.length ≤ 1
  · rw [if_pos hlen]
    exact ⟨hin, rfl⟩
  · rw [if_neg hlen]
    obtain ⟨g1, g2⟩ := applyMergesGo_spec merges vocab hMP ids [] hin
    constructor
    · intro y hy
      rcases g1 y hy with h1 | h1
      · exact absurd h1 (List.not_mem_nil y)
      · exact h1
    · rw [g2]
      rfl

theorem trainLoopC_consistency (fuel : Nat) :
    ∀ (vocab : List (Nat × Str)) (inv : List (Str × Nat)) (merges : Merges)
      (ids : List Nat) (ok : Bool),
      (∀ s id, dictGet? inv s = some id → dictGet? vocab id = some s) →
      (∀ x ∈ ids, (dictGet? vocab x).isSome = true) →
      (∀ p m, dictGet? merges p = some m → ∃ sa sb,
        dictGet? vocab p.1 = some sa ∧ dictGet? vocab p.2 = some sb ∧
          dictGet? vocab m = some (sa ++ sb)) →
      (∀ s id, dictGet? (trainLoopC fuel vocab inv merges ids ok).2.1 s = some id →
        dictGet? (trainLoopC fuel vocab inv merges ids ok).1 id = some s) ∧
      (∀ p m, dictGet? (trainLoopC fuel vocab inv merges ids ok).2.2.1 p = some m →
        ∃ sa sb,
          dictGet? (trainLoopC fuel vocab inv merges ids ok).1 p.1 = some sa ∧
          dictGet? (trainLoopC fuel vocab inv merges ids ok).1 p.2 = some sb ∧
          dictGet? (trainLoopC fuel vocab inv merges ids ok).1 m = some (sa ++ sb)) := by
  induction fuel with
  | zero =>
      intro vocab inv merges ids ok hInvC _ hMP
      exact ⟨hInvC, hMP⟩
  | succ n ih =>
      intro vocab inv merges ids ok hInvC hIds hMP
      rw [trainLoopC]
      cases hffp : find_freq_pair ids with
      | none =>
          exact ⟨hInvC, hMP⟩
      | some p =>
          simp only
          obtain ⟨hp1, hp2⟩ := find_freq_pair_mem ids p hffp
          obtain ⟨sa, hsa⟩ := Option.isSome_iff_exists.mp (hIds p.1 hp1)
          obtain ⟨sb, hsb⟩ := Option.isSome_iff_exists.mp (hIds p.2 hp2)
          have hmerged : (dictGet? vocab p.1).getD [] ++ (dictGet? vocab p.2).getD [] =
              sa ++ sb := by
            rw [hsa, hsb]
            rfl
          have happV : dictInsert vocab (maxKey vocab + 1)
              ((dictGet? vocab p.1).getD [] ++ (dictGet? vocab p.2).getD []) =
              vocab ++ [(maxKey vocab + 1,
                (dictGet? vocab p.1).getD [] ++ (dictGet? vocab p.2).getD [])] :=
            dictInsert_fresh_eq_append _ _ _ (maxKey_fresh vocab)
          have hvnone : dictGet? vocab (maxKey vocab + 1) = none := by
            have hiso := dictGet?_isSome_eq_any vocab (maxKey vocab + 1)
            rw [maxKey_fresh vocab] at hiso
            cases hg : dictGet? vocab (maxKey vocab + 1) with
            | none => rfl
            | some w =>
                rw [hg] at hiso
                cases hiso
          have hvpair : dictGet? (vocab ++ [(maxKey vocab + 1,
              (dictGet? vocab p.1).getD [] ++ (dictGet? vocab p.2).getD [])])
              (maxKey vocab + 1) = some
              ((dictGet? vocab p.1).getD [] ++ (dictGet? vocab p.2).getD []) := by
            rw [dictGet?_append, hvnone]
            unfold dictGet?
            rw [List.find?_cons_of_pos _ (by simp)]
            rfl
          have hstab : ∀ (i : Nat) (w : Str), dictGet? vocab i = some w →
              dictGet? (vocab ++ [(maxKey vocab + 1,
                (dictGet? vocab p.1).getD [] ++ (dictGet? vocab p.2).getD [])]) i =
                  some w :=
            fun i w hw => dictGet?_append_left _ _ i w hw
          rw [happV]
          refine ih _ _ _ _ _ ?_ ?_ ?_
          · intro s id h
            rw [dictGet?_insert] at h
            by_cases hs : s = (dictGet? vocab p.1).getD [] ++ (dictGet? vocab p.2).getD []
            · rw [if_pos hs] at h
              have hid : maxKey vocab + 1 = id := Option.some.inj h
              rw [← hid, hs]
              exact hvpair
            · rw [if_neg hs] at h
              exact hstab id s (hInvC s id h)
          · intro x hx
            rcases replace_pair_mem ids p (maxKey vocab + 1) x hx with h1 | h1
            · obtain ⟨w, hw⟩ := Option.isSome_iff_exists.mp (hIds x h1)
              rw [hstab x w hw]
              rfl
            · rw [h1, hvpair]
              rfl
          · intro q m h
            rw [dictGet?_insert] at h
            by_cases hq : q = p
            · rw [if_pos hq] at h
              have hm : maxKey vocab + 1 = m := Option.some.inj h
              refine ⟨sa, sb, ?_, ?_, ?_⟩
              · rw [hq]
                exact hstab p.1 sa hsa
              · rw [hq]
                exact hstab p.2 sb hsb
              · rw [← hm, hvpair, hmerged]
            · rw [if_neg hq] at h
              obtain ⟨sa', sb', ha', hb', hm'⟩ := hMP q m h
              exact ⟨sa', sb', hstab q.1 sa' ha', hstab q.2 sb' hb', hstab m _ hm'⟩

theorem trainInitIds_in (text : Str) (specials : List Str) :
    ∀ x ∈ trainInitIds text specials,
      (dictGet? (trainInit specials).1 x).isSome = true := by
  intro x hx
  unfold trainInitIds at hx
  rcases List.mem_map.mp hx with ⟨c, _, hcx⟩
  cases hg : dictGet? (trainInit specials).2 [c] with
  | some id =>
      have hx2 : x = id := by
        rw [← hcx, hg]
        rfl
      subst hx2
      rw [(trainInit_bij specials).2.2 [c] x hg]
      rfl
  | none =>
      have hx2 : x = 0 := by
        rw [← hcx, hg]
        rfl
      subst hx2
      rw [trainInit_vocab_zero specials]
      rfl

theorem encode_decode_abstract (tok : Tokenizer) (text : Str) (ids : List Nat)
    (hInvC : ∀ s id, dictGet? tok.inverse_vocab s = some id →
      dictGet? tok.vocab id = some s)
    (hMP : ∀ p m, dictGet? tok.bpe_merges p = some m → ∃ sa sb,
      dictGet? tok.vocab p.1 = some sa ∧ dictGet? tok.vocab p.2 = some sb ∧
        dictGet? tok.vocab m = some (sa ++ sb))
    (hhead : text.head? ≠ some spaceCp) (hg : gMark ∉ text)
    (henc : encode tok text = .ok ids) :
    decode tok ids = some text := by
  unfold encode at henc
  by_cases h0 : tok.vocab.length = 0
  · rw [if_pos h0] at henc
    cases henc
  · rw [if_neg h0] at henc
    by_cases htxt : text.length = 0
    · rw [if_pos htxt] at henc
      have hids : [] = ids := Except.ok.inj henc
      have htext : text = [] := List.eq_nil_of_length_eq_zero htxt
      subst htext
      rw [← hids]
      rfl
    · rw [if_neg htxt] at henc
      cases hfind : tok.inverse_vocab.find?
          (fun p => isSpecialShaped p.1 && containsSeq p.1 text) with
      | some u =>
          rw [hfind] at henc
          cases henc
      | none =>
          rw [hfind] at henc
          cases hlook : lookupChars tok.inverse_vocab (preprocess text) with
          | error c =>
              rw [hlook] at henc
              cases henc
          | ok ids0 =>
              rw [hlook] at henc
              have hids : apply_merges tok.bpe_merges ids0 = ids := Except.ok.inj henc
              obtain ⟨l1, l2⟩ := lookupChars_ok tok.inverse_vocab tok.vocab
                hInvC (preprocess text) ids0 hlook
              obtain ⟨m1, m2⟩ := apply_merges_spec tok.bpe_merges tok.vocab hMP ids0 l1
              have hflat : (ids.map (fun x => (dictGet? tok.vocab x).getD [])).flatten =
                  preprocess text := by
                rw [← hids, m2, l2]
              have hne : preprocess text ≠ [] :=
                preprocess_ne_nil text
                  (fun he => htxt (by rw [he]; rfl)) hhead
              have hidsne : ids ≠ [] := by
                intro he
                rw [he] at hflat
                exact hne hflat.symm
              unfold decode
              rw [if_neg (fun hc => hidsne (List.eq_nil_of_length_eq_zero hc))]
              have hall : ids.all (fun i => (dictGet? tok.vocab i).isSome) = true := by
                rw [List.all_eq_true]
                intro x hx
                rw [← hids] at hx
                exact m1 x hx
              rw [if_pos hall, hflat, replaceG_preprocess text hhead hg]

set_option maxRecDepth 40000 in
/-- C1 counterexample: train a fresh tokenizer on the empty corpus (so
that all 256 base characters are in the vocabulary). The text consisting
of a space then the letter a is composed only of characters in the trained
vocabulary and contains no special tokens, yet the leading space is
dropped by encode's preprocessing and decode cannot restore it:
decode(encode(" a")) = "a", not " a". -/
theorem roundtrip_cex :
    dictGet? (train initTokenizer [] 0 []).inverse_vocab [32] = some 32 ∧
      dictGet? (train initTokenizer [] 0 []).inverse_vocab [97] = some 97 ∧
      encode (train initTokenizer [] 0 []) [32, 97] = .ok [97] ∧
      decode (train initTokenizer [] 0 []) [97] = some [97] ∧
      [97] ≠ [32, 97] := by
  refine ⟨?_, ?_, ?_, ?_, by decide⟩ <;> (rw [train_eq_C]; rfl)

/-- C1 (amended): for every freshly trained tokenizer (any corpus, target
size and special-token set) and every text that does not start with a
space and does not contain the boundary-marker character, if encode
(called without allowed_specials, so the text holds no usable special
tokens) succeeds, then decode inverts it: decode(encode(text)) = text.
The exclusions are forced by the counterexample pattern: a leading space
is dropped by preprocessing, and the boundary marker itself decodes to a
space. -/
theorem train_roundtrip (corpus : Str) (vocabSize : Nat) (specials : List Str)
    (text : Str) (ids : List Nat)
    (hhead : text.head? ≠ some spaceCp) (hg : gMark ∉ text)
    (henc : encode (train initTokenizer corpus vocabSize specials) text = .ok ids) :
    decode (train initTokenizer corpus vocabSize specials) ids = some text := by
  have hmp0 : ∀ p m, dictGet? initTokenizer.bpe_merges p = some m → ∃ sa sb,
      dictGet? (trainInit specials).1 p.1 = some sa ∧
      dictGet? (trainInit specials).1 p.2 = some sb ∧
      dictGet? (trainInit specials).1 m = some (sa ++ sb) := by
    intro p m h
    simp [initTokenizer, dictGet?] at h
  refine encode_decode_abstract _ text ids ?_ ?_ hhead hg henc
  · rw [train_eq_C]
    unfold trainC trainFullC
    simp only
    exact (trainLoopC_consistency _ _ _ _ _ _ (trainInit_bij specials).2.2
      (trainInitIds_in corpus specials) hmp0).1
  · rw [train_eq_C]
    unfold trainC trainFullC
    simp only
    exact (trainLoopC_consistency _ _ _ _ _ _ (trainInit_bij specials).2.2
      (trainInitIds_in corpus specials) hmp0).2

set_option maxRecDepth 40000 in
/-- C1 witness: the tokenizer trained on "abab" to size 258 (learning the
merge (a,b)) encodes "ab c" to [257, 256, 99] and decode restores
"ab c". -/
theorem train_roundtrip_witness :
    encode (train initTokenizer [97, 98, 97, 98] 258 []) [97, 98, 32, 99] =
        .ok [257, 256, 99] ∧
      decode (train initTokenizer [97, 98, 97, 98] 258 []) [257, 256, 99] =
        some [97, 98, 32, 99] :=
  ⟨by rw [train_eq_C]; rfl,
    train_roundtrip [97, 98, 97, 98] 258 [] [97, 98, 32, 99] [257, 256, 99]
      (by decide) (by decide) (by rw [train_eq_C]; rfl)⟩
